import Mathlib

/-!
Verification of `src/ui/src/translations/generate_translations.py`.

Shallow embedding conventions:
* A Python string is modelled as a list of characters, `Str := List Char`
  (Python `str` is a sequence of code points; string literals are written
  via `String.data`).
* A Python `dict` is modelled as its insertion-ordered association list
  `List (Str × β)`; a real `dict` never holds a duplicate key, which holds
  by construction for every dict this script builds (`dictOf`, `dictInsert`)
  and is carried as an explicit hypothesis where an input dict is arbitrary.
* A JSON catalog (nested dict of strings, per the data model of the script)
  is the nested inductive `Val`.
* External effects (the OpenAI client, git history, file I/O) are modelled
  as explicit inputs: the translation provider is a function
  `Str → Str → Option Str` (`none` = the call raised), the git history is a
  list of parse results of the file's content at each revision, and `main`'s
  in-memory pipeline takes the parsed target catalog and the computed
  work-list as arguments.
-/

/-- A Python string: a sequence of characters. -/
abbrev Str := List Char

/-- A JSON catalog value: a leaf string or a nested string-keyed mapping
(the script's catalogs contain only these shapes). -/
inductive Val where
  | str : Str → Val
  | dict : List (Str × Val) → Val

/-- The keys of an association-list dict, in order. -/
def keysOf {β : Type} (d : List (Str × β)) : List Str :=
  d.map Prod.fst

/-- Python `d[k]` / `k in d`: first matching entry (unique in a real dict). -/
def alookup {β : Type} (k : Str) : List (Str × β) → Option β
  | [] => none
  | (k2, v) :: rest => if k2 = k then some v else alookup k rest

/-- Python `d[k] = v`: replace the value in place if the key is present,
otherwise append a new entry (insertion order semantics of `dict`). -/
def dictInsert {β : Type} (d : List (Str × β)) (k : Str) (v : β) : List (Str × β) :=
  if (alookup k d).isSome then d.map (fun p => if p.1 = k then (k, v) else p)
  else d ++ [(k, v)]

/-- Python `dict(items)`: build a dict by assigning each pair in order. -/
def dictOf {β : Type} (items : List (Str × β)) : List (Str × β) :=
  items.foldl (fun d p => dictInsert d p.1 p.2) []

/-- Python `target.update(d)`: assign every entry of `d` into `target`
in order (the right-biased merge in `main`, line 184). -/
def pyUpdate {β : Type} (target : List (Str × β)) (d : List (Str × β)) : List (Str × β) :=
  d.foldl (fun acc p => dictInsert acc p.1 p.2) target

/-- Python `s.split(sep)` for a one-character separator. -/
def pySplit (sep : Char) : Str → List Str
  | [] => [[]]
  | c :: rest =>
    match pySplit sep rest with
    | [] => [[]]
    | piece :: pieces =>
      if c = sep then [] :: piece :: pieces else (c :: piece) :: pieces

/-- Python `s.strip()`: drop leading and trailing whitespace. -/
def pyStrip (s : Str) : Str :=
  ((s.dropWhile Char.isWhitespace).reverse.dropWhile Char.isWhitespace).reverse

/-- The items list built by `flatten_dict` (source lines 100-108): depth-first
walk emitting `(joined_path, leaf)`; each nested dict is flattened by the
recursive `flatten_dict` call (which itself applies `dict(...)`, `dictOf`). -/
def flattenItems (d : List (Str × Val)) (parent_key : Str) (sep : Char) :
    List (Str × Str) :=
  match d with
  | [] => []
  | (k, v) :: rest =>
    let new_key := if parent_key = [] then k else parent_key ++ sep :: k
    (match v with
     | .str s => [(new_key, s)]
     | .dict sub => dictOf (flattenItems sub new_key sep)) ++
      flattenItems rest parent_key sep

/-- Source `flatten_dict(d, parent_key="", sep="|")`: `dict(items)` over the
depth-first items list. -/
def flatten_dict (d : List (Str × Val)) (parent_key : Str) (sep : Char) :
    List (Str × Str) :=
  dictOf (flattenItems d parent_key sep)

/-- One iteration of the loop body of `unflatten_dict` (source lines 91-96):
walk/create nested dicts along `keys[:-1]` with `setdefault`, then assign the
leaf at `keys[-1]`. `none` models the `TypeError` Python raises when an
intermediate path component holds a string. The `[]` case is unreachable
(`split` never returns an empty list) and is totalised as a no-op. -/
def insertSegs (entries : List (Str × Val)) (keys : List Str) (v : Str) :
    Option (List (Str × Val)) :=
  match keys with
  | [] => some entries
  | [k] => some (dictInsert entries k (.str v))
  | k :: rest =>
    match alookup k entries with
    | some (.dict sub) =>
      (insertSegs sub rest v).map (fun sub2 => dictInsert entries k (.dict sub2))
    | some (.str _) => none
    | none =>
      (insertSegs [] rest v).map (fun sub2 => entries ++ [(k, .dict sub2)])

/-- Source `unflatten_dict(d, sep="|")` (lines 89-97): fold every flat entry
into the result, splitting its key on the separator. -/
def unflatten_dict (d : List (Str × Str)) (sep : Char) :
    Option (List (Str × Val)) :=
  d.foldlM (fun result p => insertSegs result (pySplit sep p.1) p.2) []

/-- The loop of `detect_changes` (source lines 142-147), carrying the
`added_keys` and `changed_keys` accumulators. -/
def detectGo (previous_flat : List (Str × Str)) (added changed : List Str) :
    List (Str × Str) → List Str × List Str
  | [] => (added, changed)
  | (k, v) :: rest =>
    match alookup k previous_flat with
    | none => detectGo previous_flat (added ++ [k]) changed rest
    | some w =>
      if v ≠ w then detectGo previous_flat added (changed ++ [k]) rest
      else detectGo previous_flat added changed rest

/-- Source `detect_changes(current_dict, previous_dict)` (lines 135-148):
flatten both catalogs, collect keys absent from the previous flat catalog
(`added_keys`) and keys present with a different value (`changed_keys`);
the returned `set(added_keys + changed_keys)` is modelled by the
concatenated list, read up to membership. -/
def detect_changes (current_dict previous_dict : List (Str × Val)) :
    List Str :=
  let current_flat := flatten_dict current_dict [] '|'
  let previous_flat := flatten_dict previous_dict [] '|'
  let r := detectGo previous_flat [] [] current_flat
  r.1 ++ r.2

/-- Source `translate_text(text, target_language)` (lines 11-86): the OpenAI
call is the opaque `provider`; on success the response content is stripped
and returned, on any exception (`none`) the original text is returned. -/
def translate_text (provider : Str → Str → Option Str) (text : Str)
    (target_language : Str) : Str :=
  match provider text target_language with
  | some response => pyStrip response
  | none => text

/-- Python truthiness test `k in target_flat and target_flat[k]`
(source line 177). -/
def hasNonemptyValue (k : Str) (target_flat : List (Str × Str)) : Bool :=
  match alookup k target_flat with
  | some w => !w.isEmpty
  | none => false

/-- The per-key loop of `main` (source lines 175-182), carrying the
`translated_flat_dict` accumulator and, for the provider-invocation claims,
the list of keys for which `translate_text` was called. -/
def translateGo (provider : Str → Str → Option Str) (target_language : Str)
    (target_flat : List (Str × Str)) (acc : List (Str × Str)) (calls : List Str) :
    List (Str × Str) → List (Str × Str) × List Str
  | [] => (acc, calls)
  | (k, v) :: rest =>
    if hasNonemptyValue k target_flat then
      translateGo provider target_language target_flat acc calls rest
    else
      translateGo provider target_language target_flat
        (dictInsert acc k (translate_text provider v target_language))
        (calls ++ [k]) rest

/-- The in-memory pipeline of `main` (source lines 171-185): flatten the
target catalog, run the translation loop over the work-list `to_translate`,
and merge the results with `target_flat.update(...)`. Returns the merged
flat target catalog together with the keys the provider was invoked for.
The file reads/writes and the git-derived computation of `to_translate`
are external and appear as arguments. -/
def main_run (provider : Str → Str → Option Str) (target_language : Str)
    (target_dict : List (Str × Val)) (to_translate : List (Str × Str)) :
    List (Str × Str) × List Str :=
  let target_flat := flatten_dict target_dict [] '|'
  let r := translateGo provider target_language target_flat [] [] to_translate
  (pyUpdate target_flat r.1, r.2)

/-- Source `load_en_changes_from_last_commits` (lines 111-127). The git
repository is external: `history` lists, most recent first, the parse
result of the input file's content at each revision that touched it
(`none` = the blob cannot be read or `json.loads` raises). The code takes
the two most recent such commits, returns `{}` if there are fewer than two,
and otherwise returns the parsed content of the second one, with any
exception degraded to `{}`. -/
def load_en_changes_from_last_commits
    (history : List (Option (List (Str × Val)))) : List (Str × Val) :=
  let commits := history.take 2
  if commits.length < 2 then []
  else
    match commits.get? 1 with
    | some (some d) => d
    | some none => []
    | none => []

/-- Lexicographic comparison of Python strings by code point, as used by
`sort_keys=True`: `lexLe a b` is `a <= b`. -/
def lexLe : Str → Str → Bool
  | [], _ => true
  | _ :: _, [] => false
  | a :: as, b :: bs => if a < b then true else if b < a then false else lexLe as bs

/-- Insert an entry into an entry list sorted by key. -/
def insertByKey (p : Str × Val) : List (Str × Val) → List (Str × Val)
  | [] => [p]
  | q :: rest => if lexLe p.1 q.1 then p :: q :: rest else q :: insertByKey p rest

/-- Sort an entry list by key (the effect of `sort_keys=True` at one level;
any sort agrees on the duplicate-free key lists of a real dict). -/
def sortByKey : List (Str × Val) → List (Str × Val)
  | [] => []
  | p :: rest => insertByKey p (sortByKey rest)

mutual
/-- Recursively sort every nesting level by key: the canonical form that
`json.dump(..., sort_keys=True)` serializes. -/
def canon : Val → Val
  | .str s => .str s
  | .dict d => .dict (sortByKey (canonEntries d))
/-- Apply `canon` to every value of an entry list. -/
def canonEntries : List (Str × Val) → List (Str × Val)
  | [] => []
  | (k, v) :: rest => (k, canon v) :: canonEntries rest
end

/-- JSON string escaping with `ensure_ascii=False`: only the quote, the
backslash and control characters are escaped; all other characters -
including non-ASCII - are emitted literally. -/
def escapeChar (c : Char) : Str :=
  if c = '"' then ['\\', '"']
  else if c = '\\' then ['\\', '\\']
  else if c = '\n' then ['\\', 'n']
  else if c = '\t' then ['\\', 't']
  else if c = '\r' then ['\\', 'r']
  else if c.toNat = 8 then ['\\', 'b']
  else if c.toNat = 12 then ['\\', 'f']
  else if c.toNat < 32 then
    ['\\', 'u', '0', '0', Nat.digitChar (c.toNat / 16), Nat.digitChar (c.toNat % 16)]
  else [c]

/-- Render a JSON string literal. -/
def quoteStr (s : Str) : Str :=
  '"' :: (s.map escapeChar).flatten ++ ['"']

/-- An indentation of `n` spaces. -/
def indentSp (n : Nat) : Str :=
  List.replicate n ' '

mutual
/-- Render a (already canonically ordered) value the way
`json.dump(obj, f, ensure_ascii=False, indent=2, sort_keys=True)` lays it
out: two-space indentation, one entry per line. -/
def renderVal : Val → Nat → Str
  | .str s, _ => quoteStr s
  | .dict [], _ => ['\x7b', '\x7d']
  | .dict (p :: rest), ind =>
    '\x7b' :: '\n' :: renderEntries (p :: rest) (ind + 2) ++
      '\n' :: indentSp ind ++ ['\x7d']
/-- Render the entry lines of a non-empty dict, comma-separated. -/
def renderEntries : List (Str × Val) → Nat → Str
  | [], _ => []
  | [(k, v)], ind => indentSp ind ++ quoteStr k ++ ':' :: ' ' :: renderVal v ind
  | (k, v) :: q :: rest, ind =>
    indentSp ind ++ quoteStr k ++ ':' :: ' ' :: renderVal v ind ++
      ',' :: '\n' :: renderEntries (q :: rest) ind
end

/-- Model of the serialization in `main` (source lines 188-189):
`json.dump` with `sort_keys=True` emits every nesting level in ascending
key order (`canon`), with two-space indentation and `ensure_ascii=False`
escaping (`renderVal`). -/
def serializeJson (v : Val) : Str :=
  renderVal (canon v) 0

/-- Helper for termination of `pyEqVal`: a value looked up in an
association list is structurally smaller than the list. -/
theorem sizeOf_lt_of_alookup {β : Type} [SizeOf β] :
    ∀ (l : List (Str × β)) (k : Str) (v : β), alookup k l = some v →
      sizeOf v < sizeOf l := by
  intro l
  induction l with
  | nil => intro k v h; simp [alookup] at h
  | cons p rest ih =>
    intro k v h
    obtain ⟨k2, w⟩ := p
    simp only [alookup] at h
    by_cases hk : k2 = k
    · simp [hk] at h
      subst h
      simp
      omega
    · simp [hk] at h
      have := ih k v h
      simp
      omega

mutual
/-- Python `==` on catalog values: strings compare by content, dicts by
key set and pointwise-equal values, independent of entry order. -/
def pyEqVal : Val → Val → Bool
  | .str a, .str b => a = b
  | .dict d1, .dict d2 => d1.length = d2.length && pySubset d1 d2
  | .str _, .dict _ => false
  | .dict _, .str _ => false
termination_by a b => sizeOf a + sizeOf b
decreasing_by
  simp
  try omega
/-- Every entry of `d1` is present in `d2` with a Python-equal value. -/
def pySubset : List (Str × Val) → List (Str × Val) → Bool
  | [], _ => true
  | (k, v) :: rest, d2 =>
    (match hl : alookup k d2 with
     | some w => pyEqVal v w
     | none => false) && pySubset rest d2
termination_by d1 d2 => sizeOf d1 + sizeOf d2
decreasing_by
  all_goals try have h9 : sizeOf w < sizeOf d2 := sizeOf_lt_of_alookup d2 k w hl
  all_goals simp
  all_goals try omega
end

/-- Well-formedness of a catalog value as a Python object: every dict level
has pairwise-distinct keys (a real `dict` cannot hold duplicates). -/
inductive WFV : Val → Prop
  | str (s : Str) : WFV (.str s)
  | dict (d : List (Str × Val)) : (keysOf d).Nodup → (∀ p ∈ d, WFV p.2) →
      WFV (.dict d)

/-- The catalogs for which the flatten/unflatten round trip holds:
pairwise-distinct keys per level (any Python dict), no key containing the
separator, every nested mapping non-empty, and - when `top` is `true`,
i.e. at the root level of `flatten_dict` - no empty-string key (an
empty root key makes `flatten_dict` drop the level prefix entirely,
because the empty `parent_key` is falsy). -/
inductive GoodE : Bool → List (Str × Val) → Prop
  | nil (top : Bool) : GoodE top []
  | str {top : Bool} {k s : Str} {rest : List (Str × Val)} :
      (top = true → k ≠ []) → '|' ∉ k → k ∉ keysOf rest → GoodE top rest →
      GoodE top ((k, .str s) :: rest)
  | dict {top : Bool} {k : Str} {sub rest : List (Str × Val)} :
      (top = true → k ≠ []) → '|' ∉ k → k ∉ keysOf rest → sub ≠ [] →
      GoodE false sub → GoodE top rest → GoodE top ((k, .dict sub) :: rest)

mutual
/-- Boolean check that no key at any nesting level contains the separator
(the hypothesis of the round-trip claim). -/
def noSepKeys (sep : Char) : List (Str × Val) → Bool
  | [] => true
  | (k, v) :: rest => !k.contains sep && noSepVal sep v && noSepKeys sep rest
/-- Value form of `noSepKeys`. -/
def noSepVal (sep : Char) : Val → Bool
  | .str _ => true
  | .dict d => noSepKeys sep d
end

mutual
/-- Boolean check that every nesting level has pairwise-distinct keys
(what it means for the tree to be a Python dict). -/
def nodupKeysRec : List (Str × Val) → Bool
  | [] => true
  | (k, v) :: rest =>
    !(keysOf rest).contains k && nodupVal v && nodupKeysRec rest
/-- Value form of `nodupKeysRec`. -/
def nodupVal : Val → Bool
  | .str _ => true
  | .dict d => nodupKeysRec d
end

/-- The value of the last occurrence of `x` in an association list (what a
sequence of Python dict assignments leaves behind). -/
def lastValue {β : Type} (x : Str) : List (Str × β) → Option β
  | [] => none
  | (k, v) :: rest =>
    match lastValue x rest with
    | some w => some w
    | none => if k = x then some v else none

/-- The keys `detect_changes` collects in `added_keys`: present in the
current flat catalog, absent from the previous one. -/
def addedKeys (previous_flat : List (Str × Str)) (l : List (Str × Str)) :
    List Str :=
  keysOf (l.filter (fun p => (alookup p.1 previous_flat).isNone))

/-- The keys `detect_changes` collects in `changed_keys`: present in both
flat catalogs with different values. -/
def changedKeys (previous_flat : List (Str × Str)) (l : List (Str × Str)) :
    List Str :=
  keysOf (l.filter (fun p =>
    match alookup p.1 previous_flat with
    | some w => p.2 != w
    | none => false))

mutual
/-- Boolean check that every nested mapping value is non-empty. -/
def noEmptyDicts : List (Str × Val) → Bool
  | [] => true
  | (_, v) :: rest => noEmptyVal v && noEmptyDicts rest
/-- Value form of `noEmptyDicts`. -/
def noEmptyVal : Val → Bool
  | .str _ => true
  | .dict d => !d.isEmpty && noEmptyDicts d
end

/-- Join path segments with the separator (the inverse of `pySplit` on
separator-free segments). -/
def joinSegs (sep : Char) : List Str → Str
  | [] => []
  | [s] => s
  | s :: s2 :: rest => s ++ sep :: joinSegs sep (s2 :: rest)

/-- The flat key `flatten_dict` builds for the path `segs` reached from
`parent_key`: the joined path, prefixed by the parent key when the parent
key is non-empty (Python truthiness of `parent_key`). -/
def extKey (sep : Char) (parent_key : Str) (segs : List Str) : Str :=
  if parent_key = [] then joinSegs sep segs
  else parent_key ++ sep :: joinSegs sep segs

/-- The leaf paths of a catalog in depth-first order: each element is the
list of key segments from the root to a leaf together with the leaf value. -/
def pathsE : List (Str × Val) → List (List Str × Str)
  | [] => []
  | (k, Val.str s) :: rest => ([k], s) :: pathsE rest
  | (k, Val.dict sub) :: rest =>
    (pathsE sub).map (fun q => (k :: q.1, q.2)) ++ pathsE rest

/-- Fold segment-list paths into a nested catalog with `insertSegs` (what
`unflatten_dict` does after splitting each flat key). -/
def insertPaths (start : List (Str × Val)) (P : List (List Str × Str)) :
    Option (List (Str × Val)) :=
  P.foldlM (fun entries q => insertSegs entries q.1 q.2) start

theorem alookup_isSome_iff {β : Type} (k : Str) (d : List (Str × β)) :
    (alookup k d).isSome ↔ k ∈ keysOf d := by
  induction d with
  | nil => simp [alookup, keysOf]
  | cons p rest ih =>
    obtain ⟨k2, v⟩ := p
    simp only [alookup, keysOf, List.map_cons, List.mem_cons]
    by_cases h : k2 = k
    · subst h
      rw [if_pos rfl]
      constructor
      · intro hx
        exact Or.inl rfl
      · intro hx
        rfl
    · simp only [h, if_false]
      rw [keysOf] at ih
      rw [ih]
      constructor
      · intro hx
        exact Or.inr hx
      · rintro (hx | hx)
        · exact absurd hx.symm h
        · exact hx

theorem alookup_eq_none_iff {β : Type} (k : Str) (d : List (Str × β)) :
    alookup k d = none ↔ k ∉ keysOf d := by
  rw [← alookup_isSome_iff]
  cases alookup k d <;> simp

theorem mem_of_alookup_eq_some {β : Type} {k : Str} {d : List (Str × β)} {v : β}
    (h : alookup k d = some v) : (k, v) ∈ d := by
  induction d with
  | nil => simp [alookup] at h
  | cons p rest ih =>
    obtain ⟨k2, w⟩ := p
    by_cases hk : k2 = k
    · simp [alookup, hk] at h
      simp [hk, h]
    · simp [alookup, hk] at h
      simp [ih h]

theorem alookup_eq_some_of_mem_of_nodup {β : Type} {k : Str} {d : List (Str × β)}
    {v : β} (hd : (keysOf d).Nodup) (h : (k, v) ∈ d) : alookup k d = some v := by
  induction d with
  | nil => simp at h
  | cons p rest ih =>
    obtain ⟨k2, w⟩ := p
    rw [keysOf, List.map_cons, List.nodup_cons] at hd
    rcases List.mem_cons.mp h with h1 | h1
    · rw [Prod.mk.injEq] at h1
      simp only [alookup]
      rw [if_pos h1.1.symm, h1.2]
    · have hk : k2 ≠ k := by
        intro he
        subst he
        have hmem : (k2, v).1 ∈ List.map Prod.fst rest :=
          List.mem_map_of_mem Prod.fst h1
        exact hd.1 hmem
      simp only [alookup]
      rw [if_neg hk]
      exact ih hd.2 h1

theorem lastValue_eq_none_iff {β : Type} (x : Str) (d : List (Str × β)) :
    lastValue x d = none ↔ x ∉ keysOf d := by
  induction d with
  | nil => simp [lastValue, keysOf]
  | cons p rest ih =>
    obtain ⟨k, v⟩ := p
    rw [keysOf, List.map_cons, List.mem_cons]
    simp only [lastValue]
    cases h : lastValue x rest with
    | some w =>
      have hx : x ∈ List.map Prod.fst rest := by
        by_contra hx
        exact Option.noConfusion (h ▸ ih.mpr hx)
      constructor
      · intro hc
        exact Option.noConfusion hc
      · intro hc
        exact absurd (Or.inr hx) hc
    | none =>
      by_cases hk : k = x
      · rw [if_pos hk]
        constructor
        · intro hc
          exact Option.noConfusion hc
        · intro hc
          exact absurd (Or.inl hk.symm) hc
      · rw [if_neg hk]
        have hx : x ∉ keysOf rest := ih.mp h
        constructor
        · intro hdummy
          rintro (hc | hc)
          · exact hk hc.symm
          · exact hx hc
        · intro hdummy
          rfl

theorem lastValue_eq_alookup_of_nodup {β : Type} (x : Str) (d : List (Str × β))
    (hd : (keysOf d).Nodup) : lastValue x d = alookup x d := by
  induction d with
  | nil => simp [lastValue, alookup]
  | cons p rest ih =>
    obtain ⟨k, v⟩ := p
    rw [keysOf, List.map_cons, List.nodup_cons] at hd
    simp only [lastValue, alookup]
    by_cases hk : k = x
    · subst hk
      rw [(lastValue_eq_none_iff k rest).mpr hd.1]
      show (if k = k then some v else none) = if k = k then some v else alookup k rest
      rw [if_pos rfl, if_pos rfl]
    · rw [ih hd.2]
      cases halo : alookup x rest with
      | some w =>
        show some w = if k = x then some v else some w
        rw [if_neg hk]
      | none => rfl

theorem alookup_append {β : Type} (k : Str) (d l : List (Str × β)) :
    alookup k (d ++ l) =
      match alookup k d with
      | some u => some u
      | none => alookup k l := by
  induction d with
  | nil => rfl
  | cons p rest ih =>
    obtain ⟨k2, w⟩ := p
    simp only [List.cons_append, alookup]
    by_cases hk : k2 = k
    · rw [if_pos hk, if_pos hk]
    · rw [if_neg hk, if_neg hk]
      exact ih

theorem alookup_map_replace {β : Type} (d : List (Str × β)) (k : Str) (v : β)
    (h : k ∈ keysOf d) :
    alookup k (d.map (fun p => if p.1 = k then (k, v) else p)) = some v := by
  induction d with
  | nil => simp [keysOf] at h
  | cons p rest ih =>
    obtain ⟨k2, w⟩ := p
    simp only [List.map_cons]
    by_cases hk : k2 = k
    · subst hk
      rw [if_pos rfl]
      simp only [alookup]
      rw [if_pos trivial]
    · rw [if_neg hk]
      simp only [alookup]
      rw [if_neg hk]
      rw [keysOf, List.map_cons, List.mem_cons] at h
      rcases h with h1 | h1
      · exact absurd h1.symm hk
      · exact ih h1

theorem alookup_map_replace_ne {β : Type} (d : List (Str × β)) (k x : Str) (v : β)
    (hx : x ≠ k) :
    alookup x (d.map (fun p => if p.1 = k then (k, v) else p)) = alookup x d := by
  induction d with
  | nil => rfl
  | cons p rest ih =>
    obtain ⟨k2, w⟩ := p
    simp only [List.map_cons]
    by_cases hk : k2 = k
    · subst hk
      rw [if_pos rfl]
      simp only [alookup]
      rw [if_neg (fun he => hx he.symm), if_neg (fun he => hx he.symm)]
      exact ih
    · rw [if_neg hk]
      simp only [alookup]
      by_cases hx2 : k2 = x
      · rw [if_pos hx2, if_pos hx2]
      · rw [if_neg hx2, if_neg hx2]
        exact ih

theorem alookup_dictInsert_self {β : Type} (d : List (Str × β)) (k : Str) (v : β) :
    alookup k (dictInsert d k v) = some v := by
  unfold dictInsert
  by_cases h : (alookup k d).isSome
  · rw [if_pos h]
    exact alookup_map_replace d k v ((alookup_isSome_iff k d).mp h)
  · rw [if_neg h]
    rw [alookup_append]
    rw [Option.not_isSome_iff_eq_none] at h
    rw [h]
    show alookup k [(k, v)] = some v
    simp only [alookup]
    rw [if_pos trivial]

theorem alookup_dictInsert_ne {β : Type} (d : List (Str × β)) (k x : Str) (v : β)
    (hx : x ≠ k) : alookup x (dictInsert d k v) = alookup x d := by
  unfold dictInsert
  by_cases h : (alookup k d).isSome
  · rw [if_pos h]
    exact alookup_map_replace_ne d k x v hx
  · rw [if_neg h]
    rw [alookup_append]
    cases ha : alookup x d with
    | some u => rfl
    | none =>
      show alookup x [(k, v)] = none
      simp only [alookup]
      rw [if_neg (fun he => hx he.symm)]

theorem keysOf_map_replace {β : Type} (d : List (Str × β)) (k : Str) (v : β) :
    keysOf (d.map (fun p => if p.1 = k then (k, v) else p)) = keysOf d := by
  rw [keysOf, keysOf, List.map_map]
  refine List.map_congr_left ?_
  intro a ha
  simp only [Function.comp_apply]
  by_cases h : a.1 = k
  · rw [if_pos h]
    exact h.symm
  · rw [if_neg h]

theorem keysOf_dictInsert_of_mem {β : Type} (d : List (Str × β)) (k : Str) (v : β)
    (h : k ∈ keysOf d) : keysOf (dictInsert d k v) = keysOf d := by
  unfold dictInsert
  rw [if_pos ((alookup_isSome_iff k d).mpr h)]
  exact keysOf_map_replace d k v

theorem dictInsert_of_notMem {β : Type} (d : List (Str × β)) (k : Str) (v : β)
    (h : k ∉ keysOf d) : dictInsert d k v = d ++ [(k, v)] := by
  unfold dictInsert
  rw [if_neg (fun hs => h ((alookup_isSome_iff k d).mp hs))]

theorem nodup_keysOf_dictInsert {β : Type} (d : List (Str × β)) (k : Str) (v : β)
    (h : (keysOf d).Nodup) : (keysOf (dictInsert d k v)).Nodup := by
  by_cases hk : k ∈ keysOf d
  · rw [keysOf_dictInsert_of_mem d k v hk]
    exact h
  · rw [dictInsert_of_notMem d k v hk]
    rw [keysOf, List.map_append]
    refine List.Nodup.append h (List.nodup_singleton k) ?_
    intro a ha hb
    rw [List.map_singleton, List.mem_singleton] at hb
    subst hb
    exact hk ha

theorem mem_keysOf_dictInsert_self {β : Type} (d : List (Str × β)) (k : Str) (v : β) :
    k ∈ keysOf (dictInsert d k v) := by
  rw [← alookup_isSome_iff, alookup_dictInsert_self]
  rfl

theorem keysOf_dictInsert_sub {β : Type} (d : List (Str × β)) (k : Str) (v : β)
    (x : Str) (h : x ∈ keysOf d) : x ∈ keysOf (dictInsert d k v) := by
  by_cases hk : k ∈ keysOf d
  · rw [keysOf_dictInsert_of_mem d k v hk]
    exact h
  · rw [dictInsert_of_notMem d k v hk, keysOf, List.map_append]
    exact List.mem_append_left _ h

theorem alookup_pyUpdate {β : Type} (t d : List (Str × β)) (x : Str) :
    alookup x (pyUpdate t d) =
      match lastValue x d with
      | some w => some w
      | none => alookup x t := by
  induction d generalizing t with
  | nil => rfl
  | cons p rest ih =>
    obtain ⟨k, v⟩ := p
    show alookup x (pyUpdate (dictInsert t k v) rest) = _
    rw [ih (dictInsert t k v)]
    simp only [lastValue]
    cases hl : lastValue x rest with
    | some w => rfl
    | none =>
      by_cases hk : k = x
      · subst hk
        rw [if_pos rfl, alookup_dictInsert_self]
      · rw [if_neg hk, alookup_dictInsert_ne t k x v (fun he => hk he.symm)]

theorem nodup_keysOf_pyUpdate {β : Type} (t d : List (Str × β))
    (h : (keysOf t).Nodup) : (keysOf (pyUpdate t d)).Nodup := by
  induction d generalizing t with
  | nil => exact h
  | cons p rest ih =>
    obtain ⟨k, v⟩ := p
    show (keysOf (pyUpdate (dictInsert t k v) rest)).Nodup
    exact ih (dictInsert t k v) (nodup_keysOf_dictInsert t k v h)

theorem keysOf_pyUpdate_of_sub {β : Type} (t d : List (Str × β))
    (h : ∀ x, x ∈ keysOf d → x ∈ keysOf t) : keysOf (pyUpdate t d) = keysOf t := by
  induction d generalizing t with
  | nil => rfl
  | cons p rest ih =>
    obtain ⟨k, v⟩ := p
    show keysOf (pyUpdate (dictInsert t k v) rest) = keysOf t
    have hk : k ∈ keysOf t := by
      refine h k ?_
      rw [keysOf, List.map_cons]
      exact List.mem_cons_self _ _
    have he : keysOf (dictInsert t k v) = keysOf t :=
      keysOf_dictInsert_of_mem t k v hk
    have hsub : ∀ x, x ∈ keysOf rest → x ∈ keysOf (dictInsert t k v) := by
      intro x hx
      rw [he]
      refine h x ?_
      rw [keysOf, List.map_cons]
      exact List.mem_cons_of_mem _ hx
    rw [ih (dictInsert t k v) hsub, he]

theorem mem_keysOf_pyUpdate_left {β : Type} (t d : List (Str × β)) (x : Str)
    (h : x ∈ keysOf t) : x ∈ keysOf (pyUpdate t d) := by
  rw [← alookup_isSome_iff] at h ⊢
  rw [alookup_pyUpdate]
  cases hl : lastValue x d with
  | some w => rfl
  | none => exact h

theorem mem_keysOf_pyUpdate_right {β : Type} (t d : List (Str × β)) (x : Str)
    (h : x ∈ keysOf d) : x ∈ keysOf (pyUpdate t d) := by
  rw [← alookup_isSome_iff, alookup_pyUpdate]
  cases hl : lastValue x d with
  | some w => rfl
  | none => exact absurd h ((lastValue_eq_none_iff x d).mp hl)

theorem dict_ext {β : Type} : ∀ (a b : List (Str × β)),
    keysOf a = keysOf b → (keysOf a).Nodup →
    (∀ x, alookup x a = alookup x b) → a = b := by
  intro a
  induction a with
  | nil =>
    intro b hk hn hl
    cases b with
    | nil => rfl
    | cons q bs => simp [keysOf] at hk
  | cons p as ih =>
    intro b hk hn hl
    cases b with
    | nil => simp [keysOf] at hk
    | cons q bs =>
      obtain ⟨k, v⟩ := p
      obtain ⟨k2, w⟩ := q
      rw [keysOf, keysOf, List.map_cons, List.map_cons] at hk
      injection hk with hk1 hk2
      have hkk : k = k2 := hk1
      subst hkk
      have hv := hl k
      simp only [alookup] at hv
      rw [if_pos trivial, if_pos trivial] at hv
      injection hv with hv
      subst hv
      rw [keysOf, List.map_cons, List.nodup_cons] at hn
      have htail : as = bs := by
        refine ih bs hk2 hn.2 ?_
        intro x
        by_cases hx : x = k
        · subst hx
          have hnb : x ∉ keysOf bs := by
            rw [keysOf, ← hk2]
            exact hn.1
          rw [(alookup_eq_none_iff x as).mpr hn.1,
            (alookup_eq_none_iff x bs).mpr hnb]
        · have hlx := hl x
          simp only [alookup] at hlx
          rw [if_neg (fun he => hx he.symm), if_neg (fun he => hx he.symm)] at hlx
          exact hlx
      rw [htail]

theorem dictOf_eq_pyUpdate {β : Type} (l : List (Str × β)) :
    dictOf l = pyUpdate [] l := rfl

theorem nodup_keysOf_dictOf {β : Type} (l : List (Str × β)) :
    (keysOf (dictOf l)).Nodup := by
  rw [dictOf_eq_pyUpdate]
  exact nodup_keysOf_pyUpdate [] l (by simp [keysOf])

theorem alookup_dictOf {β : Type} (l : List (Str × β)) (x : Str) :
    alookup x (dictOf l) = lastValue x l := by
  rw [dictOf_eq_pyUpdate, alookup_pyUpdate]
  cases lastValue x l <;> rfl

theorem detectGo_closed (pf : List (Str × Str)) :
    ∀ (l : List (Str × Str)) (a c : List Str),
      detectGo pf a c l = (a ++ addedKeys pf l, c ++ changedKeys pf l) := by
  intro l
  induction l with
  | nil =>
    intro a c
    simp [detectGo, addedKeys, changedKeys, keysOf]
  | cons p rest ih =>
    intro a c
    obtain ⟨k, v⟩ := p
    simp only [detectGo]
    cases hk : alookup k pf with
    | none =>
      show detectGo pf (a ++ [k]) c rest = _
      rw [ih (a ++ [k]) c]
      have ha : addedKeys pf ((k, v) :: rest) = k :: addedKeys pf rest := by
        simp [addedKeys, keysOf, List.filter_cons, hk]
      have hc : changedKeys pf ((k, v) :: rest) = changedKeys pf rest := by
        simp [changedKeys, keysOf, List.filter_cons, hk]
      rw [ha, hc, List.append_assoc]
      rfl
    | some w =>
      by_cases hv : v = w
      · show (if v ≠ w then detectGo pf a (c ++ [k]) rest
          else detectGo pf a c rest) = _
        rw [if_neg (fun hne => hne hv)]
        rw [ih a c]
        have ha : addedKeys pf ((k, v) :: rest) = addedKeys pf rest := by
          simp [addedKeys, keysOf, List.filter_cons, hk]
        have hc : changedKeys pf ((k, v) :: rest) = changedKeys pf rest := by
          simp [changedKeys, keysOf, List.filter_cons, hk, hv]
        rw [ha, hc]
      · show (if v ≠ w then detectGo pf a (c ++ [k]) rest
          else detectGo pf a c rest) = _
        rw [if_pos hv]
        rw [ih a (c ++ [k])]
        have ha : addedKeys pf ((k, v) :: rest) = addedKeys pf rest := by
          simp [addedKeys, keysOf, List.filter_cons, hk]
        have hc : changedKeys pf ((k, v) :: rest) = k :: changedKeys pf rest := by
          simp [changedKeys, keysOf, List.filter_cons, hk, hv]
        rw [ha, hc, List.append_assoc]
        rfl

theorem mem_addedKeys (pf l : List (Str × Str)) (x : Str) :
    x ∈ addedKeys pf l ↔ ∃ v, (x, v) ∈ l ∧ alookup x pf = none := by
  rw [addedKeys, keysOf]
  constructor
  · intro h
    obtain ⟨p, hp, hpx⟩ := List.mem_map.mp h
    obtain ⟨hpl, hq⟩ := List.mem_filter.mp hp
    refine ⟨p.2, ?_, ?_⟩
    · rw [← hpx]
      exact hpl
    · rw [← hpx]
      exact Option.isNone_iff_eq_none.mp (by revert hq; cases alookup p.1 pf <;> simp)
  · rintro ⟨v, hvl, hnone⟩
    refine List.mem_map.mpr ⟨(x, v), List.mem_filter.mpr ⟨hvl, ?_⟩, rfl⟩
    show ((alookup (x, v).1 pf).isNone = true)
    rw [show (x, v).1 = x from rfl, hnone]
    rfl

theorem mem_changedKeys (pf l : List (Str × Str)) (x : Str) :
    x ∈ changedKeys pf l ↔
      ∃ v w, (x, v) ∈ l ∧ alookup x pf = some w ∧ v ≠ w := by
  rw [changedKeys, keysOf]
  constructor
  · intro h
    obtain ⟨p, hp, hpx⟩ := List.mem_map.mp h
    obtain ⟨hpl, hq⟩ := List.mem_filter.mp hp
    subst hpx
    cases hl : alookup p.1 pf with
    | none =>
      rw [hl] at hq
      exact absurd hq (by simp)
    | some w =>
      rw [hl] at hq
      refine ⟨p.2, w, hpl, rfl, ?_⟩
      simpa using hq
  · rintro ⟨v, w, hvl, hsome, hne⟩
    refine List.mem_map.mpr ⟨(x, v), List.mem_filter.mpr ⟨hvl, ?_⟩, rfl⟩
    show (match alookup (x, v).1 pf with
      | some w => (x, v).2 != w
      | none => false) = true
    rw [show (x, v).1 = x from rfl, hsome]
    simpa using hne

theorem detect_changes_mem (cur prev : List (Str × Val)) (x : Str) :
    x ∈ detect_changes cur prev ↔
      ∃ v, (x, v) ∈ flatten_dict cur [] '|' ∧
        (alookup x (flatten_dict prev [] '|') = none ∨
          ∃ w, alookup x (flatten_dict prev [] '|') = some w ∧ v ≠ w) := by
  show x ∈ (detectGo (flatten_dict prev [] '|') [] []
      (flatten_dict cur [] '|')).1 ++
      (detectGo (flatten_dict prev [] '|') [] []
        (flatten_dict cur [] '|')).2 ↔ _
  rw [detectGo_closed]
  rw [List.nil_append, List.nil_append, List.mem_append]
  rw [mem_addedKeys, mem_changedKeys]
  constructor
  · rintro (⟨v, hv, hn⟩ | ⟨v, w, hv, hs, hne⟩)
    · exact ⟨v, hv, Or.inl hn⟩
    · exact ⟨v, hv, Or.inr ⟨w, hs, hne⟩⟩
  · rintro ⟨v, hv, hn | ⟨w, hs, hne⟩⟩
    · exact Or.inl ⟨v, hv, hn⟩
    · exact Or.inr ⟨v, w, hv, hs, hne⟩

theorem flatten_dict_nil (parent_key : Str) (sep : Char) :
    flatten_dict [] parent_key sep = [] := by
  rw [flatten_dict, flattenItems]
  rfl

/-- C2: change detection characterization. For every pair of catalogs, a
path is in `detect_changes(current, previous)` iff it is present in the
flattened current catalog and either absent from the flattened previous
catalog or mapped to a different value under exact string inequality;
consequently a path absent from both is never in the result, and a path
present in both with equal values is never in the result. -/
theorem c2_detect_changes_characterization
    (cur prev : List (Str × Val)) (k : Str) :
    k ∈ detect_changes cur prev ↔
      ∃ v, alookup k (flatten_dict cur [] '|') = some v ∧
        (alookup k (flatten_dict prev [] '|') = none ∨
          ∃ w, alookup k (flatten_dict prev [] '|') = some w ∧ v ≠ w) := by
  rw [detect_changes_mem]
  constructor
  · rintro ⟨v, hv, hrest⟩
    exact ⟨v, alookup_eq_some_of_mem_of_nodup (nodup_keysOf_dictOf _) hv, hrest⟩
  · rintro ⟨v, hv, hrest⟩
    exact ⟨v, mem_of_alookup_eq_some hv, hrest⟩

/-- C5: merge idempotence. Applying the right-biased merge
`target_flat.update(translations)` twice with the same translation dict
gives the same flat target catalog as applying it once (stated for target
catalogs with duplicate-free keys, which every Python dict has). -/
theorem c5_merge_idempotence (t d : List (Str × Str))
    (hn : (keysOf t).Nodup) :
    pyUpdate (pyUpdate t d) d = pyUpdate t d := by
  refine dict_ext _ _ ?_ ?_ ?_
  · exact keysOf_pyUpdate_of_sub (pyUpdate t d) d
      (fun x hx => mem_keysOf_pyUpdate_right t d x hx)
  · exact nodup_keysOf_pyUpdate (pyUpdate t d) d (nodup_keysOf_pyUpdate t d hn)
  · intro x
    rw [alookup_pyUpdate (pyUpdate t d) d x, alookup_pyUpdate t d x]
    cases hld : lastValue x d with
    | some w => rfl
    | none => rfl

theorem c5_merge_idempotence_witness :
    (keysOf [("a".data, "x".data)]).Nodup ∧
      pyUpdate (pyUpdate [("a".data, "x".data)]
          [("a".data, "y".data), ("b".data, "z".data)])
        [("a".data, "y".data), ("b".data, "z".data)] =
      pyUpdate [("a".data, "x".data)]
        [("a".data, "y".data), ("b".data, "z".data)] :=
  ⟨by decide, c5_merge_idempotence _ _ (by decide)⟩

/-- C7: snapshot degradation. The previous-snapshot retrieval returns an
empty catalog, not an error, whenever fewer than two revisions touching the
file exist or the second-most-recent revision's content cannot be parsed;
and with that empty snapshot the pipeline treats every key of the current
catalog as new (every current key is in the Change Set). -/
theorem c7_snapshot_degradation
    (history : List (Option (List (Str × Val))))
    (h : history.length < 2 ∨ history.get? 1 = some none) :
    load_en_changes_from_last_commits history = [] ∧
      ∀ (cur : List (Str × Val)) (k : Str),
        (k ∈ detect_changes cur (load_en_changes_from_last_commits history) ↔
          k ∈ keysOf (flatten_dict cur [] '|')) := by
  have hload : load_en_changes_from_last_commits history = [] := by
    match history, h with
    | [], _ => rfl
    | [x], _ => rfl
    | x :: y :: rest, h =>
      rcases h with hlen | hget
      · exact absurd hlen (by simp)
      · have hy : y = none := by simpa [List.get?] using hget
        subst hy
        rfl
  refine ⟨hload, ?_⟩
  intro cur k
  rw [hload, detect_changes_mem]
  constructor
  · rintro ⟨v, hv, hrest⟩
    exact List.mem_map_of_mem Prod.fst hv
  · intro hk
    have hs : (alookup k (flatten_dict cur [] '|')).isSome :=
      (alookup_isSome_iff k _).mpr hk
    obtain ⟨v, hv⟩ := Option.isSome_iff_exists.mp hs
    refine ⟨v, mem_of_alookup_eq_some hv, Or.inl ?_⟩
    rw [flatten_dict_nil]
    rfl

theorem c7_snapshot_degradation_witness :
    load_en_changes_from_last_commits
        [some [("en".data, Val.str "hi".data)], none] = [] ∧
      ("a".data ∈ detect_changes [("a".data, Val.str "x".data)]
          (load_en_changes_from_last_commits
            [some [("en".data, Val.str "hi".data)], none]) ↔
        "a".data ∈ keysOf
          (flatten_dict [("a".data, Val.str "x".data)] [] '|')) :=
  ⟨(c7_snapshot_degradation
      [some [("en".data, Val.str "hi".data)], none] (Or.inr rfl)).1,
    (c7_snapshot_degradation
      [some [("en".data, Val.str "hi".data)], none] (Or.inr rfl)).2 _ _⟩

theorem mem_keysOf_dictInsert_elim {β : Type} (d : List (Str × β)) (k : Str)
    (v : β) (x : Str) (h : x ∈ keysOf (dictInsert d k v)) :
    x = k ∨ x ∈ keysOf d := by
  by_cases hk : k ∈ keysOf d
  · rw [keysOf_dictInsert_of_mem d k v hk] at h
    exact Or.inr h
  · rw [dictInsert_of_notMem d k v hk, keysOf, List.map_append] at h
    rcases List.mem_append.mp h with h1 | h1
    · exact Or.inr h1
    · rw [List.map_singleton, List.mem_singleton] at h1
      exact Or.inl h1

theorem translateGo_calls_mono (p : Str → Str → Option Str) (lang : Str)
    (tflat : List (Str × Str)) :
    ∀ (items : List (Str × Str)) (acc : List (Str × Str)) (calls : List Str)
      (x : Str), x ∈ calls →
      x ∈ (translateGo p lang tflat acc calls items).2 := by
  intro items
  induction items with
  | nil => intro acc calls x hx; exact hx
  | cons q rest ih =>
    intro acc calls x hx
    obtain ⟨k2, v2⟩ := q
    simp only [translateGo]
    by_cases hb : hasNonemptyValue k2 tflat = true
    · rw [if_pos hb]
      exact ih acc calls x hx
    · rw [if_neg hb]
      exact ih _ _ x (List.mem_append_left _ hx)

theorem translateGo_skip (p : Str → Str → Option Str) (lang : Str)
    (tflat : List (Str × Str)) :
    ∀ (items : List (Str × Str)) (acc : List (Str × Str)) (calls : List Str)
      (k : Str), hasNonemptyValue k tflat = true →
      ((k ∈ (translateGo p lang tflat acc calls items).2 → k ∈ calls) ∧
        (k ∈ keysOf (translateGo p lang tflat acc calls items).1 →
          k ∈ keysOf acc)) := by
  intro items
  induction items with
  | nil =>
    intro acc calls k hk
    exact ⟨fun h => h, fun h => h⟩
  | cons q rest ih =>
    intro acc calls k hk
    obtain ⟨k2, v2⟩ := q
    simp only [translateGo]
    by_cases hb : hasNonemptyValue k2 tflat = true
    · rw [if_pos hb]
      exact ih acc calls k hk
    · rw [if_neg hb]
      have hne : k ≠ k2 := by
        intro he
        subst he
        exact hb hk
      obtain ⟨h1, h2⟩ := ih
        (dictInsert acc k2 (translate_text p v2 lang)) (calls ++ [k2]) k hk
      refine ⟨fun hin => ?_, fun hin => ?_⟩
      · rcases List.mem_append.mp (h1 hin) with hc | hc
        · exact hc
        · rw [List.mem_singleton] at hc
          exact absurd hc hne
      · rcases mem_keysOf_dictInsert_elim acc k2 _ k (h2 hin) with hc | hc
        · exact absurd hc hne
        · exact hc

theorem translateGo_keys_sub (p : Str → Str → Option Str) (lang : Str)
    (tflat : List (Str × Str)) :
    ∀ (items : List (Str × Str)) (acc : List (Str × Str)) (calls : List Str)
      (x : Str), x ∈ keysOf (translateGo p lang tflat acc calls items).1 →
      x ∈ keysOf acc ∨ x ∈ (translateGo p lang tflat acc calls items).2 := by
  intro items
  induction items with
  | nil =>
    intro acc calls x hx
    exact Or.inl hx
  | cons q rest ih =>
    intro acc calls x hx
    obtain ⟨k2, v2⟩ := q
    simp only [translateGo] at hx ⊢
    by_cases hb : hasNonemptyValue k2 tflat = true
    · rw [if_pos hb] at hx ⊢
      exact ih acc calls x hx
    · rw [if_neg hb] at hx ⊢
      rcases ih _ _ x hx with hc | hc
      · rcases mem_keysOf_dictInsert_elim acc k2 _ x hc with he | he
        · subst he
          refine Or.inr (translateGo_calls_mono p lang tflat rest _ _ x ?_)
          exact List.mem_append_right _ (List.mem_singleton.mpr rfl)
        · exact Or.inl he
      · exact Or.inr hc

theorem translateGo_lookup_untouched (p : Str → Str → Option Str) (lang : Str)
    (tflat : List (Str × Str)) :
    ∀ (items : List (Str × Str)) (acc : List (Str × Str)) (calls : List Str)
      (x : Str), x ∉ keysOf items →
      alookup x (translateGo p lang tflat acc calls items).1 = alookup x acc := by
  intro items
  induction items with
  | nil =>
    intro acc calls x hx
    rfl
  | cons q rest ih =>
    intro acc calls x hx
    obtain ⟨k2, v2⟩ := q
    rw [keysOf, List.map_cons, List.mem_cons] at hx
    push_neg at hx
    simp only [translateGo]
    by_cases hb : hasNonemptyValue k2 tflat = true
    · rw [if_pos hb]
      exact ih acc calls x hx.2
    · rw [if_neg hb]
      rw [ih _ _ x hx.2]
      exact alookup_dictInsert_ne acc k2 x _ hx.1

theorem translateGo_nodup (p : Str → Str → Option Str) (lang : Str)
    (tflat : List (Str × Str)) :
    ∀ (items : List (Str × Str)) (acc : List (Str × Str)) (calls : List Str),
      (keysOf acc).Nodup →
      (keysOf (translateGo p lang tflat acc calls items).1).Nodup := by
  intro items
  induction items with
  | nil =>
    intro acc calls h
    exact h
  | cons q rest ih =>
    intro acc calls h
    obtain ⟨k2, v2⟩ := q
    simp only [translateGo]
    by_cases hb : hasNonemptyValue k2 tflat = true
    · rw [if_pos hb]
      exact ih acc calls h
    · rw [if_neg hb]
      exact ih _ _ (nodup_keysOf_dictInsert acc k2 _ h)

theorem translateGo_processes (p : Str → Str → Option Str) (lang : Str)
    (tflat : List (Str × Str)) :
    ∀ (items : List (Str × Str)) (acc : List (Str × Str)) (calls : List Str)
      (k v : Str), (keysOf items).Nodup → (k, v) ∈ items →
      hasNonemptyValue k tflat = false →
      (k ∈ (translateGo p lang tflat acc calls items).2 ∧
        alookup k (translateGo p lang tflat acc calls items).1 =
          some (translate_text p v lang)) := by
  intro items
  induction items with
  | nil =>
    intro acc calls k v hnd hmem hfalse
    exact absurd hmem (List.not_mem_nil _)
  | cons q rest ih =>
    intro acc calls k v hnd hmem hfalse
    obtain ⟨k2, v2⟩ := q
    rw [keysOf, List.map_cons, List.nodup_cons] at hnd
    simp only [translateGo]
    rcases List.mem_cons.mp hmem with h1 | h1
    · rw [Prod.mk.injEq] at h1
      obtain ⟨he1, he2⟩ := h1
      subst he1
      subst he2
      have hnb : ¬ hasNonemptyValue k tflat = true := by
        rw [hfalse]
        exact Bool.false_ne_true
      rw [if_neg hnb]
      constructor
      · refine translateGo_calls_mono p lang tflat rest _ _ k ?_
        exact List.mem_append_right _ (List.mem_singleton.mpr rfl)
      · have hknot : k ∉ keysOf rest := hnd.1
        rw [translateGo_lookup_untouched p lang tflat rest _ _ k hknot]
        exact alookup_dictInsert_self acc k _
    · by_cases hb : hasNonemptyValue k2 tflat = true
      · rw [if_pos hb]
        exact ih acc calls k v hnd.2 h1 hfalse
      · rw [if_neg hb]
        exact ih _ _ k v hnd.2 h1 hfalse

/-- C1: non-overwrite invariant. If a key has a non-empty value in the
flattened target catalog before a run, its value after the run's merge is
unchanged - whatever the work-list (Change Set) contains - and the
translation provider is never invoked for it. -/
theorem c1_non_overwrite (provider : Str → Str → Option Str) (lang : Str)
    (target_dict : List (Str × Val)) (to_translate : List (Str × Str))
    (k w : Str)
    (hk : alookup k (flatten_dict target_dict [] '|') = some w)
    (hne : w ≠ []) :
    alookup k (main_run provider lang target_dict to_translate).1 = some w ∧
      k ∉ (main_run provider lang target_dict to_translate).2 := by
  have hskip : hasNonemptyValue k (flatten_dict target_dict [] '|') = true := by
    simp only [hasNonemptyValue, hk]
    cases w with
    | nil => exact absurd rfl hne
    | cons c cs => rfl
  have hsk := translateGo_skip provider lang (flatten_dict target_dict [] '|')
    to_translate [] [] k hskip
  constructor
  · show alookup k (pyUpdate (flatten_dict target_dict [] '|')
      (translateGo provider lang (flatten_dict target_dict [] '|')
        [] [] to_translate).1) = some w
    have hkeys : k ∉ keysOf (translateGo provider lang
        (flatten_dict target_dict [] '|') [] [] to_translate).1 := by
      intro hin
      exact absurd (hsk.2 hin) (by simp [keysOf])
    rw [alookup_pyUpdate, (lastValue_eq_none_iff k _).mpr hkeys]
    exact hk
  · show k ∉ (translateGo provider lang (flatten_dict target_dict [] '|')
      [] [] to_translate).2
    intro hin
    exact absurd (hsk.1 hin) (List.not_mem_nil k)

/-- C9: general frame property of the merge. Every key present in the
flattened target catalog before the run whose translation was not performed
in the run (it was not in the work-list, or it was skipped) keeps exactly
its previous value - including keys holding the empty string - and no key
is ever deleted by the run. -/
theorem c9_merge_frame (provider : Str → Str → Option Str) (lang : Str)
    (target_dict : List (Str × Val)) (to_translate : List (Str × Str))
    (k w : Str)
    (hk : alookup k (flatten_dict target_dict [] '|') = some w)
    (hnotrans : k ∉ (main_run provider lang target_dict to_translate).2) :
    alookup k (main_run provider lang target_dict to_translate).1 = some w ∧
      ∀ x, x ∈ keysOf (flatten_dict target_dict [] '|') →
        x ∈ keysOf (main_run provider lang target_dict to_translate).1 := by
  constructor
  · show alookup k (pyUpdate (flatten_dict target_dict [] '|')
      (translateGo provider lang (flatten_dict target_dict [] '|')
        [] [] to_translate).1) = some w
    have hkeys : k ∉ keysOf (translateGo provider lang
        (flatten_dict target_dict [] '|') [] [] to_translate).1 := by
      intro hin
      rcases translateGo_keys_sub provider lang _ to_translate [] [] k hin with
        hc | hc
      · exact absurd hc (by simp [keysOf])
      · exact hnotrans hc
    rw [alookup_pyUpdate, (lastValue_eq_none_iff k _).mpr hkeys]
    exact hk
  · intro x hx
    show x ∈ keysOf (pyUpdate (flatten_dict target_dict [] '|')
      (translateGo provider lang (flatten_dict target_dict [] '|')
        [] [] to_translate).1)
    exact mem_keysOf_pyUpdate_left _ _ x hx

/-- C10: empty-value re-translation. Every work-list key whose target value
is the empty string or that is absent from the flattened target catalog is
passed to the translation provider, and the provider's result (as returned
by `translate_text`) becomes its value in the merged target. -/
theorem c10_empty_value_retranslation (provider : Str → Str → Option Str)
    (lang : Str) (target_dict : List (Str × Val))
    (to_translate : List (Str × Str)) (k v : Str)
    (hnd : (keysOf to_translate).Nodup)
    (hmem : (k, v) ∈ to_translate)
    (hempty : alookup k (flatten_dict target_dict [] '|') = none ∨
      alookup k (flatten_dict target_dict [] '|') = some []) :
    k ∈ (main_run provider lang target_dict to_translate).2 ∧
      alookup k (main_run provider lang target_dict to_translate).1 =
        some (translate_text provider v lang) := by
  have hfalse : hasNonemptyValue k (flatten_dict target_dict [] '|') = false := by
    rcases hempty with he | he <;> simp [hasNonemptyValue, he]
  obtain ⟨hcalls, hlook⟩ := translateGo_processes provider lang
    (flatten_dict target_dict [] '|') to_translate [] [] k v hnd hmem hfalse
  constructor
  · exact hcalls
  · show alookup k (pyUpdate (flatten_dict target_dict [] '|')
      (translateGo provider lang (flatten_dict target_dict [] '|')
        [] [] to_translate).1) = some (translate_text provider v lang)
    rw [alookup_pyUpdate,
      lastValue_eq_alookup_of_nodup k _
        (translateGo_nodup provider lang _ to_translate [] [] (by simp [keysOf])),
      hlook]

/-- C4: provider-failure fallback and continuation. When the provider
raises on the text of a non-skipped key, `translate_text` returns the
original source text, the loop records exactly that text for the key, and
processing continues with the remaining work-list items. -/
theorem c4_provider_failure_fallback (provider : Str → Str → Option Str)
    (lang : Str) (tflat acc : List (Str × Str)) (calls : List Str)
    (k v : Str) (post : List (Str × Str))
    (hfail : provider v lang = none)
    (hempty : alookup k tflat = none ∨ alookup k tflat = some []) :
    translate_text provider v lang = v ∧
      translateGo provider lang tflat acc calls ((k, v) :: post) =
        translateGo provider lang tflat (dictInsert acc k v)
          (calls ++ [k]) post := by
  have htt : translate_text provider v lang = v := by
    rw [translate_text, hfail]
  refine ⟨htt, ?_⟩
  have hnb : ¬ hasNonemptyValue k tflat = true := by
    have : hasNonemptyValue k tflat = false := by
      rcases hempty with he | he <;> simp [hasNonemptyValue, he]
    rw [this]
    exact Bool.false_ne_true
  simp only [translateGo]
  rw [if_neg hnb, htt]

theorem flattenItems_nil (parent_key : Str) (sep : Char) :
    flattenItems [] parent_key sep = [] := by
  rw [flattenItems]

theorem flattenItems_cons_str (k s : Str) (rest : List (Str × Val))
    (parent_key : Str) (sep : Char) :
    flattenItems ((k, Val.str s) :: rest) parent_key sep =
      (if parent_key = [] then k else parent_key ++ sep :: k, s) ::
        flattenItems rest parent_key sep := by
  rw [flattenItems]
  rfl

theorem flattenItems_cons_dict (k : Str) (sub rest : List (Str × Val))
    (parent_key : Str) (sep : Char) :
    flattenItems ((k, Val.dict sub) :: rest) parent_key sep =
      dictOf (flattenItems sub
          (if parent_key = [] then k else parent_key ++ sep :: k) sep) ++
        flattenItems rest parent_key sep := by
  rw [flattenItems]

theorem c1_non_overwrite_witness :
    alookup ("a".data)
        (main_run (fun t _ => some t) ("German".data)
          [(("a".data), Val.str ("x".data))] [(("a".data), ("NEW".data))]).1 =
      some ("x".data) ∧
      ("a".data) ∉
        (main_run (fun t _ => some t) ("German".data)
          [(("a".data), Val.str ("x".data))] [(("a".data), ("NEW".data))]).2 :=
  c1_non_overwrite (fun t _ => some t) ("German".data)
    [(("a".data), Val.str ("x".data))] [(("a".data), ("NEW".data))]
    ("a".data) ("x".data)
    (by
      simp only [flatten_dict, flattenItems_cons_str, flattenItems_nil]
      decide)
    (by decide)

theorem c9_merge_frame_witness :
    alookup ("a".data)
        (main_run (fun t _ => some t) ("German".data)
          [(("a".data), Val.str [])] [(("b".data), ("y".data))]).1 =
      some [] ∧
      ∀ x, x ∈ keysOf (flatten_dict [(("a".data), Val.str [])] [] '|') →
        x ∈ keysOf (main_run (fun t _ => some t) ("German".data)
          [(("a".data), Val.str [])] [(("b".data), ("y".data))]).1 :=
  c9_merge_frame (fun t _ => some t) ("German".data)
    [(("a".data), Val.str [])] [(("b".data), ("y".data))]
    ("a".data) []
    (by
      simp only [flatten_dict, flattenItems_cons_str, flattenItems_nil]
      decide)
    (by
      simp only [main_run, flatten_dict, flattenItems_cons_str, flattenItems_nil]
      decide)

theorem c10_empty_value_retranslation_witness :
    ("a".data) ∈
        (main_run (fun t _ => some t) ("German".data)
          [(("a".data), Val.str [])] [(("a".data), ("src".data))]).2 ∧
      alookup ("a".data)
          (main_run (fun t _ => some t) ("German".data)
            [(("a".data), Val.str [])] [(("a".data), ("src".data))]).1 =
        some (translate_text (fun t _ => some t) ("src".data) ("German".data)) :=
  c10_empty_value_retranslation (fun t _ => some t) ("German".data)
    [(("a".data), Val.str [])] [(("a".data), ("src".data))]
    ("a".data) ("src".data)
    (by decide)
    (by decide)
    (Or.inr (by
      simp only [flatten_dict, flattenItems_cons_str, flattenItems_nil]
      decide))

theorem c4_provider_failure_fallback_witness :
    translate_text (fun _ _ => none) ("s".data) ("German".data) = ("s".data) ∧
      translateGo (fun _ _ => none) ("German".data) [] [] []
          [(("b".data), ("s".data)), (("c".data), ("t".data))] =
        translateGo (fun _ _ => none) ("German".data) []
          (dictInsert [] ("b".data) ("s".data)) ([] ++ [("b".data)])
          [(("c".data), ("t".data))] :=
  c4_provider_failure_fallback (fun _ _ => none) ("German".data) [] [] []
    ("b".data) ("s".data) [(("c".data), ("t".data))]
    rfl
    (Or.inl rfl)

theorem pySplit_ne_nil (sep : Char) : ∀ (l : Str), pySplit sep l ≠ [] := by
  intro l
  cases l with
  | nil => simp [pySplit]
  | cons c rest =>
    simp only [pySplit]
    cases pySplit sep rest with
    | nil =>
      show ([[]] : List Str) ≠ []
      simp
    | cons piece pieces =>
      show (if c = sep then [] :: piece :: pieces
        else (c :: piece) :: pieces) ≠ []
      by_cases h : c = sep
      · rw [if_pos h]
        simp
      · rw [if_neg h]
        simp

theorem pySplit_no_sep (sep : Char) : ∀ (l : Str), sep ∉ l →
    pySplit sep l = [l] := by
  intro l
  induction l with
  | nil => intro h; rfl
  | cons c rest ih =>
    intro h
    rw [List.mem_cons] at h
    push_neg at h
    simp only [pySplit]
    rw [ih h.2]
    show (if c = sep then [] :: rest :: [] else (c :: rest) :: []) = [c :: rest]
    rw [if_neg (fun he => h.1 he.symm)]

theorem pySplit_append (sep : Char) : ∀ (a b : Str), sep ∉ a →
    pySplit sep (a ++ sep :: b) = a :: pySplit sep b := by
  intro a
  induction a with
  | nil =>
    intro b h
    simp only [List.nil_append, pySplit]
    cases hs : pySplit sep b with
    | nil => exact absurd hs (pySplit_ne_nil sep b)
    | cons piece pieces =>
      exact if_pos trivial
  | cons c a2 ih =>
    intro b h
    rw [List.mem_cons] at h
    push_neg at h
    simp only [List.cons_append, pySplit, List.append_eq]
    rw [ih b h.2]
    show (if c = sep then [] :: a2 :: pySplit sep b
      else (c :: a2) :: pySplit sep b) = (c :: a2) :: pySplit sep b
    rw [if_neg (fun he => h.1 he.symm)]

theorem joinSegs_cons (sep : Char) (k : Str) (segs : List Str)
    (h : segs ≠ []) :
    joinSegs sep (k :: segs) = k ++ sep :: joinSegs sep segs := by
  obtain ⟨s2, rest2, rfl⟩ := List.exists_cons_of_ne_nil h
  rfl

theorem pySplit_joinSegs (sep : Char) : ∀ (segs : List Str), segs ≠ [] →
    (∀ s ∈ segs, sep ∉ s) → pySplit sep (joinSegs sep segs) = segs := by
  intro segs
  induction segs with
  | nil =>
    intro h hs
    exact absurd rfl h
  | cons s rest ih =>
    intro hne hs
    cases rest with
    | nil =>
      exact pySplit_no_sep sep s (hs s (List.mem_cons_self s []))
    | cons s2 rest2 =>
      rw [joinSegs_cons sep s (s2 :: rest2) (List.cons_ne_nil s2 rest2)]
      rw [pySplit_append sep s _ (hs s (List.mem_cons_self _ _))]
      rw [ih (List.cons_ne_nil s2 rest2)
        (fun x hx => hs x (List.mem_cons_of_mem _ hx))]

theorem extKey_singleton (sep : Char) (p k : Str) :
    extKey sep p [k] = if p = [] then k else p ++ sep :: k := rfl

theorem extKey_ne_nil (sep : Char) (p k : Str)
    (h : p = [] → k ≠ []) : extKey sep p [k] ≠ [] := by
  rw [extKey_singleton]
  by_cases hp : p = []
  · rw [if_pos hp]
    exact h hp
  · rw [if_neg hp]
    intro he
    exact hp (List.append_eq_nil.mp he).1

theorem extKey_compose (sep : Char) (p k : Str) (segs : List Str)
    (hsegs : segs ≠ []) (hk : p = [] → k ≠ []) :
    extKey sep (extKey sep p [k]) segs = extKey sep p (k :: segs) := by
  rw [extKey_singleton]
  by_cases hp : p = []
  · rw [if_pos hp, hp]
    have hk2 : k ≠ [] := hk hp
    rw [extKey, extKey, if_neg hk2, if_pos rfl,
      joinSegs_cons sep k segs hsegs]
  · rw [if_neg hp]
    have hpk : p ++ sep :: k ≠ [] := by simp
    rw [extKey, extKey, if_neg hpk, if_neg hp,
      joinSegs_cons sep k segs hsegs]
    simp [List.append_assoc]

theorem extKey_inj (sep : Char) (p : Str) (a b : List Str)
    (ha1 : a ≠ []) (ha2 : ∀ s ∈ a, sep ∉ s)
    (hb1 : b ≠ []) (hb2 : ∀ s ∈ b, sep ∉ s)
    (h : extKey sep p a = extKey sep p b) : a = b := by
  rw [extKey, extKey] at h
  by_cases hp : p = []
  · rw [if_pos hp, if_pos hp] at h
    rw [← pySplit_joinSegs sep a ha1 ha2, ← pySplit_joinSegs sep b hb1 hb2, h]
  · rw [if_neg hp, if_neg hp] at h
    have h2 : sep :: joinSegs sep a = sep :: joinSegs sep b :=
      List.append_cancel_left h
    injection h2 with h3 h4
    rw [← pySplit_joinSegs sep a ha1 ha2, ← pySplit_joinSegs sep b hb1 hb2, h4]

theorem pathsE_nil : pathsE [] = [] := by
  rw [pathsE]

theorem pathsE_cons_str (k s : Str) (rest : List (Str × Val)) :
    pathsE ((k, Val.str s) :: rest) = ([k], s) :: pathsE rest := by
  rw [pathsE]

theorem pathsE_cons_dict (k : Str) (sub rest : List (Str × Val)) :
    pathsE ((k, Val.dict sub) :: rest) =
      (pathsE sub).map (fun q => (k :: q.1, q.2)) ++ pathsE rest := by
  rw [pathsE]

theorem pathsE_head : ∀ (d : List (Str × Val)) (q : List Str × Str),
    q ∈ pathsE d → ∃ k2 t, q.1 = k2 :: t ∧ k2 ∈ keysOf d := by
  intro d
  induction d with
  | nil =>
    intro q hq
    rw [pathsE_nil] at hq
    exact absurd hq (List.not_mem_nil q)
  | cons p rest ih =>
    intro q hq
    obtain ⟨k, v⟩ := p
    cases v with
    | str s =>
      rw [pathsE_cons_str] at hq
      rcases List.mem_cons.mp hq with h1 | h1
      · subst h1
        exact ⟨k, [], rfl, by rw [keysOf, List.map_cons]; exact List.mem_cons_self _ _⟩
      · obtain ⟨k2, t, ht, hk2⟩ := ih q h1
        exact ⟨k2, t, ht, by rw [keysOf, List.map_cons]; exact List.mem_cons_of_mem _ hk2⟩
    | dict sub =>
      rw [pathsE_cons_dict] at hq
      rcases List.mem_append.mp hq with h1 | h1
      · obtain ⟨q2, hq2, rfl⟩ := List.mem_map.mp h1
        exact ⟨k, q2.1, rfl, by rw [keysOf, List.map_cons]; exact List.mem_cons_self _ _⟩
      · obtain ⟨k2, t, ht, hk2⟩ := ih q h1
        exact ⟨k2, t, ht, by rw [keysOf, List.map_cons]; exact List.mem_cons_of_mem _ hk2⟩

theorem pathsE_good (top : Bool) (d : List (Str × Val)) (hg : GoodE top d) :
    ∀ q ∈ pathsE d, q.1 ≠ [] ∧ ∀ s ∈ q.1, '|' ∉ s := by
  induction hg with
  | nil top2 =>
    intro q hq
    rw [pathsE_nil] at hq
    exact absurd hq (List.not_mem_nil q)
  | str h1 h2 h3 h4 ih =>
    intro q hq
    rw [pathsE_cons_str] at hq
    rcases List.mem_cons.mp hq with hq1 | hq1
    · subst hq1
      refine ⟨by simp, ?_⟩
      intro s2 hs2
      rw [List.mem_singleton] at hs2
      subst hs2
      exact h2
    · exact ih q hq1
  | dict h1 h2 h3 h4 h5 h6 ihsub ihrest =>
    intro q hq
    rw [pathsE_cons_dict] at hq
    rcases List.mem_append.mp hq with hq1 | hq1
    · obtain ⟨q2, hq2, rfl⟩ := List.mem_map.mp hq1
      refine ⟨by simp, ?_⟩
      intro s2 hs2
      rcases List.mem_cons.mp hs2 with hs3 | hs3
      · subst hs3
        exact h2
      · exact (ihsub q2 hq2).2 s2 hs3
    · exact ihrest q hq1

theorem pathsE_ne_nil (top : Bool) (d : List (Str × Val)) (hg : GoodE top d) :
    d ≠ [] → pathsE d ≠ [] := by
  induction hg with
  | nil top2 =>
    intro h
    exact absurd rfl h
  | str h1 h2 h3 h4 ih =>
    intro hne
    rw [pathsE_cons_str]
    exact List.cons_ne_nil _ _
  | dict h1 h2 h3 h4 h5 h6 ihsub ihrest =>
    intro hne
    rw [pathsE_cons_dict]
    intro hcontra
    obtain ⟨hmap, hrest⟩ := List.append_eq_nil.mp hcontra
    rw [List.map_eq_nil_iff] at hmap
    exact ihsub h4 hmap

theorem pathsE_firsts_nodup (top : Bool) (d : List (Str × Val))
    (hg : GoodE top d) : ((pathsE d).map Prod.fst).Nodup := by
  induction hg with
  | nil top2 =>
    rw [pathsE_nil]
    exact List.nodup_nil
  | @str top2 k s rest h1 h2 h3 h4 ih =>
    rw [pathsE_cons_str, List.map_cons, List.nodup_cons]
    refine ⟨?_, ih⟩
    intro hmem
    obtain ⟨q, hq, hq1⟩ := List.mem_map.mp hmem
    obtain ⟨k2, t, ht, hk2⟩ := pathsE_head _ q hq
    rw [ht] at hq1
    injection hq1 with he1 he2
    rw [he1] at hk2
    exact h3 hk2
  | @dict top2 k sub rest h1 h2 h3 h4 h5 h6 ihsub ihrest =>
    rw [pathsE_cons_dict, List.map_append, List.map_map]
    rw [List.nodup_append]
    refine ⟨?_, ihrest, ?_⟩
    · have he : (Prod.fst ∘ fun q : List Str × Str => (k :: q.1, q.2)) =
          (fun segs => k :: segs) ∘ Prod.fst := rfl
      rw [he, ← List.map_map]
      refine List.Nodup.map ?_ ihsub
      intro a b hab
      injection hab
    · intro x hx hy
      obtain ⟨q, hq, hq1⟩ := List.mem_map.mp hx
      obtain ⟨q2, hq2, hq3⟩ := List.mem_map.mp hy
      obtain ⟨k2, t, ht, hk2⟩ := pathsE_head _ q2 hq2
      have h1x : k :: q.1 = x := hq1
      have h2x : k2 :: t = x := by
        rw [← ht]
        exact hq3
      rw [← h2x] at h1x
      injection h1x with he1 he2
      rw [← he1] at hk2
      exact h3 hk2

theorem foldl_dictInsert_eq_append {β : Type} :
    ∀ (l acc : List (Str × β)), (keysOf (acc ++ l)).Nodup →
      List.foldl (fun d p => dictInsert d p.1 p.2) acc l = acc ++ l := by
  intro l
  induction l with
  | nil =>
    intro acc h
    rw [List.foldl_nil, List.append_nil]
  | cons p rest ih =>
    intro acc h
    obtain ⟨k, v⟩ := p
    have hk : k ∉ keysOf acc := by
      rw [keysOf, List.map_append] at h
      intro hmem
      rcases List.nodup_append.mp h with ⟨ha, hb, hdisj⟩
      exact hdisj hmem (by rw [List.map_cons]; exact List.mem_cons_self _ _)
    show List.foldl _ (dictInsert acc k v) rest = acc ++ (k, v) :: rest
    rw [dictInsert_of_notMem acc k v hk]
    have h2 : (keysOf ((acc ++ [(k, v)]) ++ rest)).Nodup := by
      rw [List.append_assoc]
      exact h
    rw [ih (acc ++ [(k, v)]) h2, List.append_assoc]
    rfl

theorem dictOf_eq_self {β : Type} (l : List (Str × β))
    (h : (keysOf l).Nodup) : dictOf l = l := by
  have h2 := foldl_dictInsert_eq_append l [] (by rw [List.nil_append]; exact h)
  rw [List.nil_append] at h2
  exact h2

theorem nodup_extKey_keys (p2 : Str) (P : List (List Str × Str))
    (hfn : (P.map Prod.fst).Nodup)
    (hgood : ∀ q ∈ P, q.1 ≠ [] ∧ ∀ s ∈ q.1, '|' ∉ s) :
    (keysOf (P.map (fun q => (extKey '|' p2 q.1, q.2)))).Nodup := by
  rw [keysOf, List.map_map]
  have he : (Prod.fst ∘ fun q : List Str × Str => (extKey '|' p2 q.1, q.2)) =
      (fun segs => extKey '|' p2 segs) ∘ Prod.fst := rfl
  rw [he, ← List.map_map]
  refine List.Nodup.map_on ?_ hfn
  intro x hx y hy hxy
  obtain ⟨qx, hqx, rfl⟩ := List.mem_map.mp hx
  obtain ⟨qy, hqy, rfl⟩ := List.mem_map.mp hy
  exact extKey_inj '|' p2 _ _ (hgood qx hqx).1 (hgood qx hqx).2
    (hgood qy hqy).1 (hgood qy hqy).2 hxy

theorem flattenItems_paths (top : Bool) (d : List (Str × Val))
    (hg : GoodE top d) :
    ∀ (p : Str), (p = [] → top = true) →
      flattenItems d p '|' =
        (pathsE d).map (fun q => (extKey '|' p q.1, q.2)) := by
  induction hg with
  | nil top2 =>
    intro p hp
    rw [flattenItems_nil, pathsE_nil]
    rfl
  | @str top2 k s rest h1 h2 h3 h4 ih =>
    intro p hp
    rw [flattenItems_cons_str, pathsE_cons_str, List.map_cons, ih p hp,
      extKey_singleton]
  | @dict top2 k sub rest h1 h2 h3 h4 h5 h6 ihsub ihrest =>
    intro p hp
    rw [flattenItems_cons_dict, pathsE_cons_dict, List.map_append, List.map_map]
    have hnk : (if p = [] then k else p ++ '|' :: k) = extKey '|' p [k] :=
      (extKey_singleton '|' p k).symm
    rw [hnk]
    have hkk : p = [] → k ≠ [] := fun hpe => h1 (hp hpe)
    have hne : extKey '|' p [k] ≠ [] := extKey_ne_nil '|' p k hkk
    rw [ihsub (extKey '|' p [k]) (fun he => absurd he hne)]
    rw [dictOf_eq_self _ (nodup_extKey_keys (extKey '|' p [k]) (pathsE sub)
      (pathsE_firsts_nodup false sub h5) (pathsE_good false sub h5))]
    rw [ihrest p hp]
    congr 1
    refine List.map_congr_left ?_
    intro q hq
    have hq1 : q.1 ≠ [] := (pathsE_good false sub h5 q hq).1
    rw [Function.comp_apply]
    rw [extKey_compose '|' p k q.1 hq1 hkk]

theorem map_replace_of_notMem {β : Type} (d : List (Str × β)) (k : Str) (y : β)
    (h : k ∉ keysOf d) :
    d.map (fun p => if p.1 = k then (k, y) else p) = d := by
  induction d with
  | nil => rfl
  | cons p rest ih =>
    obtain ⟨k2, w⟩ := p
    rw [keysOf, List.map_cons, List.mem_cons] at h
    push_neg at h
    rw [List.map_cons]
    have hne : (k2, w).1 ≠ k := fun he => h.1 he.symm
    rw [if_neg hne]
    rw [ih h.2]

theorem dictInsert_append_self {β : Type} (acc : List (Str × β)) (k : Str)
    (x y : β) (h : k ∉ keysOf acc) :
    dictInsert (acc ++ [(k, x)]) k y = acc ++ [(k, y)] := by
  unfold dictInsert
  have hsome : (alookup k (acc ++ [(k, x)])).isSome := by
    rw [alookup_append, (alookup_eq_none_iff k acc).mpr h]
    show (alookup k [(k, x)]).isSome
    simp only [alookup]
    rw [if_pos trivial]
    rfl
  rw [if_pos hsome, List.map_append, map_replace_of_notMem acc k y h]
  congr 1
  simp

theorem insertPaths_cons_some (start : List (Str × Val)) (q : List Str × Str)
    (P : List (List Str × Str)) (m : List (Str × Val))
    (h : insertSegs start q.1 q.2 = some m) :
    insertPaths start (q :: P) = insertPaths m P := by
  rw [insertPaths, List.foldlM_cons, h]
  rfl

theorem insertPaths_append_some (start : List (Str × Val))
    (P1 P2 : List (List Str × Str)) (m : List (Str × Val))
    (h : insertPaths start P1 = some m) :
    insertPaths start (P1 ++ P2) = insertPaths m P2 := by
  rw [insertPaths, List.foldlM_append,
    show List.foldlM (fun entries q => insertSegs entries q.1 q.2) start P1 =
      some m from h]
  rfl

theorem insertPaths_nested (k : Str) :
    ∀ (P : List (List Str × Str)) (t t2 acc : List (Str × Val)),
      k ∉ keysOf acc → (∀ q ∈ P, q.1 ≠ []) →
      insertPaths t P = some t2 →
      insertPaths (acc ++ [(k, Val.dict t)])
        (P.map (fun q => (k :: q.1, q.2))) =
        some (acc ++ [(k, Val.dict t2)]) := by
  intro P
  induction P with
  | nil =>
    intro t t2 acc hk hgood h
    have h2 : t = t2 := by
      rw [insertPaths, List.foldlM_nil] at h
      injection h
    subst h2
    rfl
  | cons q P2 ih =>
    intro t t2 acc hk hgood h
    cases hstep : insertSegs t q.1 q.2 with
    | none =>
      rw [insertPaths, List.foldlM_cons, hstep] at h
      exact absurd h (by simp)
    | some t3 =>
      rw [insertPaths_cons_some t q P2 t3 hstep] at h
      obtain ⟨q1h, q1t, hq1⟩ :=
        List.exists_cons_of_ne_nil (hgood q (List.mem_cons_self q P2))
      have hlook : alookup k (acc ++ [(k, Val.dict t)]) = some (Val.dict t) := by
        rw [alookup_append, (alookup_eq_none_iff k acc).mpr hk]
        show alookup k [(k, Val.dict t)] = some (Val.dict t)
        simp only [alookup]
        rw [if_pos trivial]
      have hstep2 : insertSegs (acc ++ [(k, Val.dict t)]) (k :: q.1) q.2 =
          some (acc ++ [(k, Val.dict t3)]) := by
        rw [hq1]
        rw [hq1] at hstep
        simp only [insertSegs]
        rw [hlook]
        show (insertSegs t (q1h :: q1t) q.2).map
            (fun sub2 => dictInsert (acc ++ [(k, Val.dict t)]) k (Val.dict sub2)) =
          some (acc ++ [(k, Val.dict t3)])
        rw [hstep]
        show some (dictInsert (acc ++ [(k, Val.dict t)]) k (Val.dict t3)) = _
        rw [dictInsert_append_self acc k (Val.dict t) (Val.dict t3) hk]
      rw [List.map_cons]
      rw [insertPaths_cons_some _ _ _ _ hstep2]
      exact ih t3 t2 acc hk
        (fun q2 hq2 => hgood q2 (List.mem_cons_of_mem _ hq2)) h

theorem insertPaths_pathsE (top : Bool) (d : List (Str × Val))
    (hg : GoodE top d) :
    ∀ (acc : List (Str × Val)), (∀ x, x ∈ keysOf d → x ∉ keysOf acc) →
      insertPaths acc (pathsE d) = some (acc ++ d) := by
  induction hg with
  | nil top2 =>
    intro acc hdisj
    rw [pathsE_nil, List.append_nil]
    rfl
  | @str top2 k s rest h1 h2 h3 h4 ih =>
    intro acc hdisj
    rw [pathsE_cons_str]
    have hkacc : k ∉ keysOf acc := hdisj k
      (by rw [keysOf, List.map_cons]; exact List.mem_cons_self _ _)
    have hstep : insertSegs acc [k] s = some (acc ++ [(k, Val.str s)]) := by
      simp only [insertSegs]
      rw [dictInsert_of_notMem acc k _ hkacc]
    rw [insertPaths_cons_some acc ([k], s) (pathsE rest) _ hstep]
    have hdisj2 : ∀ x, x ∈ keysOf rest → x ∉ keysOf (acc ++ [(k, Val.str s)]) := by
      intro x hx
      rw [keysOf, List.map_append]
      intro hmem
      rcases List.mem_append.mp hmem with hm | hm
      · exact hdisj x
          (by rw [keysOf, List.map_cons]; exact List.mem_cons_of_mem _ hx) hm
      · rw [List.map_singleton, List.mem_singleton] at hm
        subst hm
        exact h3 hx
    rw [ih (acc ++ [(k, Val.str s)]) hdisj2, List.append_assoc]
    rfl
  | @dict top2 k sub rest h1 h2 h3 h4 h5 h6 ihsub ihrest =>
    intro acc hdisj
    rw [pathsE_cons_dict]
    have hkacc : k ∉ keysOf acc := hdisj k
      (by rw [keysOf, List.map_cons]; exact List.mem_cons_self _ _)
    obtain ⟨q1, Pr, hps⟩ :=
      List.exists_cons_of_ne_nil (pathsE_ne_nil false sub h5 h4)
    have hsub : insertPaths [] (pathsE sub) = some sub := by
      have h0 := ihsub [] (fun x hx => by simp [keysOf])
      rw [List.nil_append] at h0
      exact h0
    rw [hps] at hsub
    cases hstep : insertSegs [] q1.1 q1.2 with
    | none =>
      rw [insertPaths, List.foldlM_cons, hstep] at hsub
      exact absurd hsub (by simp)
    | some t1 =>
      rw [insertPaths_cons_some [] q1 Pr t1 hstep] at hsub
      have hq1ne : q1.1 ≠ [] :=
        (pathsE_good false sub h5 q1 (by rw [hps]; exact List.mem_cons_self _ _)).1
      obtain ⟨q1h, q1t, hq1⟩ := List.exists_cons_of_ne_nil hq1ne
      have hstep2 : insertSegs acc (k :: q1.1) q1.2 =
          some (acc ++ [(k, Val.dict t1)]) := by
        rw [hq1]
        rw [hq1] at hstep
        simp only [insertSegs]
        rw [(alookup_eq_none_iff k acc).mpr hkacc]
        show (insertSegs [] (q1h :: q1t) q1.2).map
            (fun sub2 => acc ++ [(k, Val.dict sub2)]) =
          some (acc ++ [(k, Val.dict t1)])
        rw [hstep]
        rfl
      have hgoodPr : ∀ q ∈ Pr, q.1 ≠ [] := by
        intro q hq
        exact (pathsE_good false sub h5 q
          (by rw [hps]; exact List.mem_cons_of_mem _ hq)).1
      have htrans := insertPaths_nested k Pr t1 sub acc hkacc hgoodPr hsub
      rw [hps, List.map_cons]
      have hP1 : insertPaths acc
          ((k :: q1.1, q1.2) :: List.map (fun q => (k :: q.1, q.2)) Pr) =
          some (acc ++ [(k, Val.dict sub)]) := by
        rw [insertPaths_cons_some acc (k :: q1.1, q1.2) _ _ hstep2]
        exact htrans
      rw [insertPaths_append_some acc _ (pathsE rest) _ hP1]
      have hdisj2 : ∀ x, x ∈ keysOf rest →
          x ∉ keysOf (acc ++ [(k, Val.dict sub)]) := by
        intro x hx
        rw [keysOf, List.map_append]
        intro hmem
        rcases List.mem_append.mp hmem with hm | hm
        · exact hdisj x
            (by rw [keysOf, List.map_cons]; exact List.mem_cons_of_mem _ hx) hm
        · rw [List.map_singleton, List.mem_singleton] at hm
          subst hm
          exact h3 hx
      rw [ihrest (acc ++ [(k, Val.dict sub)]) hdisj2, List.append_assoc]
      rfl

theorem unflatten_map_eq_insertPaths :
    ∀ (P : List (List Str × Str)) (start : List (Str × Val)),
      (∀ q ∈ P, pySplit '|' (extKey '|' [] q.1) = q.1) →
      List.foldlM (fun result p => insertSegs result (pySplit '|' p.1) p.2)
        start (P.map (fun q => (extKey '|' [] q.1, q.2))) =
        insertPaths start P := by
  intro P
  induction P with
  | nil =>
    intro start h
    rfl
  | cons q P2 ih =>
    intro start h
    rw [List.map_cons, List.foldlM_cons, insertPaths, List.foldlM_cons]
    rw [show ((extKey '|' [] q.1, q.2) : Str × Str).1 = extKey '|' [] q.1 from rfl,
      h q (List.mem_cons_self q P2)]
    cases hstep : insertSegs start q.1 q.2 with
    | none => rfl
    | some m =>
      show (some m >>= fun b => List.foldlM _ b
          (P2.map (fun q => (extKey '|' [] q.1, q.2)))) =
        (some m >>= fun b => List.foldlM _ b P2)
      show List.foldlM (fun result p => insertSegs result (pySplit '|' p.1) p.2)
          m (P2.map (fun q => (extKey '|' [] q.1, q.2))) =
        List.foldlM (fun entries q => insertSegs entries q.1 q.2) m P2
      rw [ih m (fun q2 hq2 => h q2 (List.mem_cons_of_mem _ hq2))]
      rfl

/-- Round-trip lemma: over a `GoodE`-catalog, `unflatten_dict` inverts
`flatten_dict`. -/
theorem unflatten_flatten_good (C : List (Str × Val)) (hg : GoodE true C) :
    unflatten_dict (flatten_dict C [] '|') '|' = some C := by
  have hflat : flatten_dict C [] '|' =
      (pathsE C).map (fun q => (extKey '|' [] q.1, q.2)) := by
    rw [flatten_dict, flattenItems_paths true C hg [] (fun _ => rfl)]
    exact dictOf_eq_self _ (nodup_extKey_keys [] (pathsE C)
      (pathsE_firsts_nodup true C hg) (pathsE_good true C hg))
  rw [hflat, unflatten_dict]
  have hsplit : ∀ q ∈ pathsE C, pySplit '|' (extKey '|' [] q.1) = q.1 := by
    intro q hq
    have hgq := pathsE_good true C hg q hq
    rw [extKey, if_pos rfl]
    exact pySplit_joinSegs '|' q.1 hgq.1 hgq.2
  rw [unflatten_map_eq_insertPaths (pathsE C) [] hsplit]
  have h0 := insertPaths_pathsE true C hg [] (fun x hx => by simp [keysOf])
  rw [List.nil_append] at h0
  exact h0

/-- C3 (amended): round-trip losslessness. For every catalog in which no
key contains the separator, each level has pairwise-distinct keys (as any
Python dict does), every nested mapping is non-empty, and no root-level
key is the empty string, `unflatten_dict (flatten_dict C)` returns `C`
itself. (The last two conditions are forced by the counterexamples in
`c3_round_trip_counterexample`.) -/
theorem c3_round_trip_amended (C : List (Str × Val)) (hg : GoodE true C) :
    unflatten_dict (flatten_dict C [] '|') '|' = some C :=
  unflatten_flatten_good C hg

theorem c3_round_trip_amended_witness :
    unflatten_dict (flatten_dict
        [(("a".data), Val.str ("x".data)),
          (("b".data), Val.dict [(("c".data), Val.str ("y".data))])] [] '|') '|' =
      some [(("a".data), Val.str ("x".data)),
        (("b".data), Val.dict [(("c".data), Val.str ("y".data))])] :=
  c3_round_trip_amended _
    (GoodE.str (fun _ => by decide) (by decide) (by decide)
      (GoodE.dict (fun _ => by decide) (by decide) (by decide)
        (List.cons_ne_nil _ _)
        (GoodE.str (fun _ => by decide) (by decide) (by decide)
          (GoodE.nil false))
        (GoodE.nil true)))

/-- C3 counterexample: the claim as stated - round trip for every catalog
whose key segments avoid the separator - fails on the code. A key holding
an empty nested mapping is dropped by `flatten_dict` (first conjunct), and
an empty-string root key with a mapping value loses its level because the
empty `parent_key` is falsy in the f-string test (second conjunct, a
catalog with no empty nested mapping). -/
theorem c3_round_trip_counterexample :
    (noSepKeys '|' [(("a".data), Val.dict [])] = true ∧
      nodupKeysRec [(("a".data), Val.dict [])] = true ∧
      unflatten_dict (flatten_dict [(("a".data), Val.dict [])] [] '|') '|' ≠
        some [(("a".data), Val.dict [])]) ∧
    (noSepKeys '|' [(([] : Str), Val.dict [(("b".data), Val.str ("x".data))])]
        = true ∧
      nodupKeysRec [(([] : Str), Val.dict [(("b".data), Val.str ("x".data))])]
        = true ∧
      noEmptyDicts [(([] : Str), Val.dict [(("b".data), Val.str ("x".data))])]
        = true ∧
      unflatten_dict (flatten_dict
          [(([] : Str), Val.dict [(("b".data), Val.str ("x".data))])] [] '|') '|' ≠
        some [(([] : Str), Val.dict [(("b".data), Val.str ("x".data))])]) := by
  refine ⟨⟨?_, ?_, ?_⟩, ?_, ?_, ?_, ?_⟩
  · simp only [noSepKeys, noSepVal]
    try decide
  · simp only [nodupKeysRec, nodupVal]
    try decide
  · intro h
    rw [flatten_dict, flattenItems_cons_dict, flattenItems_nil,
      flattenItems_nil] at h
    have h2 : (some ([] : List (Str × Val))) =
        some [(("a".data), Val.dict [])] := h
    injection h2 with h3
    exact List.noConfusion h3
  · simp only [noSepKeys, noSepVal]
    try decide
  · simp only [nodupKeysRec, nodupVal]
    try decide
  · simp only [noEmptyDicts, noEmptyVal]
    try decide
  · intro h
    rw [flatten_dict, flattenItems_cons_dict, flattenItems_cons_str,
      flattenItems_nil, flattenItems_nil] at h
    have h2 : (some [(("b".data), Val.str ("x".data))] :
        Option (List (Str × Val))) =
        some [(([] : Str), Val.dict [(("b".data), Val.str ("x".data))])] := h
    injection h2 with h3
    injection h3 with h4 h5
    injection h4 with h6 h7
    exact absurd h6 (by decide)

/-- C8: `flatten_dict` silently discards empty nested mappings. An entry
holding an empty mapping contributes no flat path at all, so the round trip
through `unflatten_dict` returns the catalog without that entry - even
though no key segment contains the separator. -/
theorem c8_flatten_discards_empty (k : Str) (rest : List (Str × Val))
    (hg : GoodE true rest) :
    (∀ (p : Str), flatten_dict ((k, Val.dict []) :: rest) p '|' =
      flatten_dict rest p '|') ∧
    unflatten_dict (flatten_dict ((k, Val.dict []) :: rest) [] '|') '|' =
      some rest ∧
    some rest ≠ some ((k, Val.dict []) :: rest) := by
  have hdrop : ∀ (p : Str), flatten_dict ((k, Val.dict []) :: rest) p '|' =
      flatten_dict rest p '|' := by
    intro p
    rw [flatten_dict, flatten_dict, flattenItems_cons_dict, flattenItems_nil]
    rfl
  refine ⟨hdrop, ?_, ?_⟩
  · rw [hdrop []]
    exact unflatten_flatten_good rest hg
  · intro h
    injection h with h2
    have hlen := congrArg List.length h2
    simp at hlen

theorem c8_flatten_discards_empty_witness :
    flatten_dict (("a".data, Val.dict []) ::
        [(("b".data), Val.str ("y".data))]) [] '|' =
      flatten_dict [(("b".data), Val.str ("y".data))] [] '|' ∧
    unflatten_dict (flatten_dict (("a".data, Val.dict []) ::
        [(("b".data), Val.str ("y".data))]) [] '|') '|' =
      some [(("b".data), Val.str ("y".data))] ∧
    some [(("b".data), Val.str ("y".data))] ≠
      some (("a".data, Val.dict []) :: [(("b".data), Val.str ("y".data))]) :=
  ⟨(c8_flatten_discards_empty ("a".data) [(("b".data), Val.str ("y".data))]
      (GoodE.str (fun _ => by decide) (by decide) (by decide)
        (GoodE.nil true))).1 [],
    (c8_flatten_discards_empty ("a".data) [(("b".data), Val.str ("y".data))]
      (GoodE.str (fun _ => by decide) (by decide) (by decide)
        (GoodE.nil true))).2.1,
    (c8_flatten_discards_empty ("a".data) [(("b".data), Val.str ("y".data))]
      (GoodE.str (fun _ => by decide) (by decide) (by decide)
        (GoodE.nil true))).2.2⟩

theorem lexLe_total : ∀ (a b : Str), lexLe a b = true ∨ lexLe b a = true := by
  intro a
  induction a with
  | nil =>
    intro b
    exact Or.inl rfl
  | cons c as ih =>
    intro b
    cases b with
    | nil => exact Or.inr rfl
    | cons c2 bs =>
      simp only [lexLe]
      rcases lt_trichotomy c c2 with h | h | h
      · left
        rw [if_pos h]
      · subst h
        rcases ih bs with h2 | h2
        · left
          rw [if_neg (lt_irrefl c), if_neg (lt_irrefl c)]
          exact h2
        · right
          rw [if_neg (lt_irrefl c), if_neg (lt_irrefl c)]
          exact h2
      · right
        rw [if_pos h]

theorem lexLe_antisymm : ∀ (a b : Str), lexLe a b = true → lexLe b a = true →
    a = b := by
  intro a
  induction a with
  | nil =>
    intro b h1 h2
    cases b with
    | nil => rfl
    | cons c2 bs => exact absurd h2 (by rw [lexLe]; exact Bool.false_ne_true)
  | cons c as ih =>
    intro b h1 h2
    cases b with
    | nil => exact absurd h1 (by rw [lexLe]; exact Bool.false_ne_true)
    | cons c2 bs =>
      simp only [lexLe] at h1 h2
      rcases lt_trichotomy c c2 with h | h | h
      · rw [if_neg (not_lt_of_lt h), if_pos h] at h2
        exact absurd h2 Bool.false_ne_true
      · subst h
        rw [if_neg (lt_irrefl c), if_neg (lt_irrefl c)] at h1 h2
        rw [ih bs h1 h2]
      · rw [if_neg (not_lt_of_lt h), if_pos h] at h1
        exact absurd h1 Bool.false_ne_true

theorem lexLe_trans : ∀ (a b c : Str), lexLe a b = true → lexLe b c = true →
    lexLe a c = true := by
  intro a
  induction a with
  | nil =>
    intro b c h1 h2
    rfl
  | cons x as ih =>
    intro b c h1 h2
    cases b with
    | nil => exact absurd h1 (by rw [lexLe]; exact Bool.false_ne_true)
    | cons y bs =>
      cases c with
      | nil => exact absurd h2 (by rw [lexLe]; exact Bool.false_ne_true)
      | cons z cs =>
        simp only [lexLe] at h1 h2 ⊢
        rcases lt_trichotomy x y with hxy | hxy | hxy
        · rcases lt_trichotomy y z with hyz | hyz | hyz
          · rw [if_pos (lt_trans hxy hyz)]
          · subst hyz
            rw [if_pos hxy]
          · rw [if_neg (not_lt_of_lt hyz), if_pos hyz] at h2
            exact absurd h2 Bool.false_ne_true
        · subst hxy
          rw [if_neg (lt_irrefl x), if_neg (lt_irrefl x)] at h1
          rcases lt_trichotomy x z with hxz | hxz | hxz
          · rw [if_pos hxz]
          · subst hxz
            rw [if_neg (lt_irrefl x), if_neg (lt_irrefl x)] at h2 ⊢
            exact ih bs cs h1 h2
          · rw [if_neg (not_lt_of_lt hxz), if_pos hxz] at h2
            exact absurd h2 Bool.false_ne_true
        · rw [if_neg (not_lt_of_lt hxy), if_pos hxy] at h1
          exact absurd h1 Bool.false_ne_true

theorem mem_insertByKey (p : Str × Val) : ∀ (l : List (Str × Val)) (x : Str × Val),
    x ∈ insertByKey p l → x = p ∨ x ∈ l := by
  intro l
  induction l with
  | nil =>
    intro x hx
    rw [insertByKey] at hx
    rw [List.mem_singleton] at hx
    exact Or.inl hx
  | cons q rest ih =>
    intro x hx
    rw [insertByKey] at hx
    by_cases hc : lexLe p.1 q.1 = true
    · rw [if_pos hc] at hx
      rcases List.mem_cons.mp hx with h | h
      · exact Or.inl h
      · exact Or.inr h
    · rw [if_neg hc] at hx
      rcases List.mem_cons.mp hx with h | h
      · exact Or.inr (by rw [h]; exact List.mem_cons_self _ _)
      · rcases ih x h with h2 | h2
        · exact Or.inl h2
        · exact Or.inr (List.mem_cons_of_mem _ h2)

theorem insertByKey_perm (p : Str × Val) : ∀ (l : List (Str × Val)),
    List.Perm (insertByKey p l) (p :: l) := by
  intro l
  induction l with
  | nil => exact List.Perm.refl _
  | cons q rest ih =>
    rw [insertByKey]
    by_cases hc : lexLe p.1 q.1 = true
    · rw [if_pos hc]
    · rw [if_neg hc]
      exact List.Perm.trans (List.Perm.cons q ih) (List.Perm.swap p q rest)

theorem sortByKey_perm : ∀ (l : List (Str × Val)),
    List.Perm (sortByKey l) l := by
  intro l
  induction l with
  | nil => exact List.Perm.refl _
  | cons p rest ih =>
    rw [sortByKey]
    exact List.Perm.trans (insertByKey_perm p (sortByKey rest))
      (List.Perm.cons p ih)

theorem insertByKey_sorted (p : Str × Val) :
    ∀ (l : List (Str × Val)),
      List.Pairwise (fun a b : Str × Val => lexLe a.1 b.1 = true) l →
      List.Pairwise (fun a b : Str × Val => lexLe a.1 b.1 = true)
        (insertByKey p l) := by
  intro l
  induction l with
  | nil =>
    intro hs
    rw [insertByKey]
    exact List.pairwise_singleton _ _
  | cons q rest ih =>
    intro hs
    rw [List.pairwise_cons] at hs
    rw [insertByKey]
    by_cases hc : lexLe p.1 q.1 = true
    · rw [if_pos hc]
      rw [List.pairwise_cons]
      refine ⟨?_, List.pairwise_cons.mpr hs⟩
      intro b hb
      rcases List.mem_cons.mp hb with h | h
      · rw [h]
        exact hc
      · exact lexLe_trans p.1 q.1 b.1 hc (hs.1 b h)
    · rw [if_neg hc]
      rw [List.pairwise_cons]
      refine ⟨?_, ih hs.2⟩
      intro b hb
      rcases mem_insertByKey p _ b hb with h | h
      · rw [h]
        rcases lexLe_total p.1 q.1 with h2 | h2
        · exact absurd h2 hc
        · exact h2
      · exact hs.1 b h

theorem sortByKey_sorted : ∀ (l : List (Str × Val)),
    List.Pairwise (fun a b : Str × Val => lexLe a.1 b.1 = true)
      (sortByKey l) := by
  intro l
  induction l with
  | nil =>
    rw [sortByKey]
    exact List.Pairwise.nil
  | cons p rest ih =>
    rw [sortByKey]
    exact insertByKey_sorted p (sortByKey rest) ih

theorem eq_of_strictSorted_of_mem :
    ∀ (l1 l2 : List (Str × Val)),
      List.Pairwise (fun a b : Str × Val =>
        lexLe a.1 b.1 = true ∧ a.1 ≠ b.1) l1 →
      List.Pairwise (fun a b : Str × Val =>
        lexLe a.1 b.1 = true ∧ a.1 ≠ b.1) l2 →
      (∀ x, x ∈ l1 ↔ x ∈ l2) → l1 = l2 := by
  intro l1
  induction l1 with
  | nil =>
    intro l2 h1 h2 hm
    cases l2 with
    | nil => rfl
    | cons q t2 =>
      exact absurd ((hm q).mpr (List.mem_cons_self q t2)) (List.not_mem_nil q)
  | cons p t1 ih =>
    intro l2 h1 h2 hm
    cases l2 with
    | nil =>
      exact absurd ((hm p).mp (List.mem_cons_self p t1)) (List.not_mem_nil p)
    | cons q t2 =>
      rw [List.pairwise_cons] at h1 h2
      have hpq : p = q := by
        rcases List.mem_cons.mp ((hm p).mp (List.mem_cons_self p t1)) with h | h
        · exact h
        · have hqp := h2.1 p h
          rcases List.mem_cons.mp ((hm q).mpr (List.mem_cons_self q t2)) with
            h3 | h3
          · exact h3.symm
          · have hpq2 := h1.1 q h3
            exact absurd (lexLe_antisymm _ _ hpq2.1 hqp.1) hpq2.2
      subst hpq
      have htail : t1 = t2 := by
        refine ih t2 h1.2 h2.2 ?_
        intro x
        constructor
        · intro hx
          rcases List.mem_cons.mp ((hm x).mp (List.mem_cons_of_mem p hx)) with
            h | h
          · have hx2 := h1.1 x hx
            rw [h] at hx2
            exact absurd rfl hx2.2
          · exact h
        · intro hx
          rcases List.mem_cons.mp ((hm x).mpr (List.mem_cons_of_mem p hx)) with
            h | h
          · have hx2 := h2.1 x hx
            rw [h] at hx2
            exact absurd rfl hx2.2
          · exact h
      rw [htail]

theorem strictSorted_sortByKey (l : List (Str × Val))
    (hn : (keysOf l).Nodup) :
    List.Pairwise (fun a b : Str × Val =>
      lexLe a.1 b.1 = true ∧ a.1 ≠ b.1) (sortByKey l) := by
  have hs := sortByKey_sorted l
  have hn2 : (List.map Prod.fst (sortByKey l)).Nodup := by
    rw [keysOf] at hn
    exact (List.Perm.nodup_iff ((sortByKey_perm l).map Prod.fst)).mpr hn
  have hne : List.Pairwise (fun a b : Str × Val => a.1 ≠ b.1) (sortByKey l) :=
    List.pairwise_map.mp hn2
  exact hs.and hne

theorem canon_str (s : Str) : canon (Val.str s) = Val.str s := by
  rw [canon]

theorem canon_dict (d : List (Str × Val)) :
    canon (Val.dict d) = Val.dict (sortByKey (canonEntries d)) := by
  rw [canon]

theorem canonEntries_eq_map : ∀ (d : List (Str × Val)),
    canonEntries d = d.map (fun p => (p.1, canon p.2)) := by
  intro d
  induction d with
  | nil => rw [canonEntries, List.map_nil]
  | cons p rest ih =>
    obtain ⟨k, v⟩ := p
    rw [canonEntries, List.map_cons, ih]

theorem keysOf_canonEntries (d : List (Str × Val)) :
    keysOf (canonEntries d) = keysOf d := by
  rw [canonEntries_eq_map, keysOf, keysOf, List.map_map]
  rfl

theorem pyEqVal_str_iff (a b : Str) :
    pyEqVal (Val.str a) (Val.str b) = true ↔ a = b := by
  simp [pyEqVal]

theorem pyEqVal_str_dict (a : Str) (d : List (Str × Val)) :
    pyEqVal (Val.str a) (Val.dict d) = false := by
  rw [pyEqVal]

theorem pyEqVal_dict_str (d : List (Str × Val)) (b : Str) :
    pyEqVal (Val.dict d) (Val.str b) = false := by
  rw [pyEqVal]

theorem pyEqVal_dict_iff (d1 d2 : List (Str × Val)) :
    pyEqVal (Val.dict d1) (Val.dict d2) = true ↔
      d1.length = d2.length ∧ pySubset d1 d2 = true := by
  rw [pyEqVal]
  simp [Bool.and_eq_true]

theorem pySubset_iff : ∀ (d1 d2 : List (Str × Val)),
    pySubset d1 d2 = true ↔
      ∀ p ∈ d1, ∃ w, alookup p.1 d2 = some w ∧ pyEqVal p.2 w = true := by
  intro d1 d2
  induction d1 with
  | nil => simp [pySubset]
  | cons p rest ih =>
    obtain ⟨k, v⟩ := p
    rw [pySubset, Bool.and_eq_true, ih]
    cases hl : alookup k d2 with
    | none =>
      constructor
      · rintro ⟨hfalse, hrest⟩
        exact Bool.noConfusion hfalse
      · intro hall
        obtain ⟨w, hw, hpe⟩ := hall (k, v) (List.mem_cons_self _ _)
        rw [show ((k, v) : Str × Val).1 = k from rfl, hl] at hw
        exact Option.noConfusion hw
    | some w =>
      constructor
      · rintro ⟨hpe, hrest⟩
        intro p2 hp2
        rcases List.mem_cons.mp hp2 with h | h
        · subst h
          exact ⟨w, hl, hpe⟩
        · exact hrest p2 h
      · intro hall
        refine ⟨?_, fun p2 hp2 => hall p2 (List.mem_cons_of_mem _ hp2)⟩
        obtain ⟨w2, hw2, hpe⟩ := hall (k, v) (List.mem_cons_self _ _)
        rw [show ((k, v) : Str × Val).1 = k from rfl, hl] at hw2
        injection hw2 with hw3
        rw [hw3]
        exact hpe

theorem keys_mem_iff_of_pyEq (d1 d2 : List (Str × Val))
    (hlen : d1.length = d2.length) (hsub : pySubset d1 d2 = true)
    (hn1 : (keysOf d1).Nodup) :
    ∀ k, k ∈ keysOf d1 ↔ k ∈ keysOf d2 := by
  have hsubkeys : keysOf d1 ⊆ keysOf d2 := by
    intro k hk
    rw [keysOf] at hk
    obtain ⟨p, hp, hpk⟩ := List.mem_map.mp hk
    obtain ⟨w, hw, hpe⟩ := (pySubset_iff d1 d2).mp hsub p hp
    rw [hpk] at hw
    rw [← alookup_isSome_iff, hw]
    rfl
  have hlen2 : (keysOf d2).length ≤ (keysOf d1).length := by
    rw [keysOf, keysOf, List.length_map, List.length_map, hlen]
  have hperm : List.Perm (keysOf d1) (keysOf d2) :=
    List.Subperm.perm_of_length_le (List.subperm_of_subset hn1 hsubkeys) hlen2
  intro k
  exact hperm.mem_iff

theorem WFV_dict_nodup {d : List (Str × Val)} (h : WFV (Val.dict d)) :
    (keysOf d).Nodup := by
  cases h with
  | dict d hn hm => exact hn

theorem WFV_dict_mem {d : List (Str × Val)} (h : WFV (Val.dict d)) :
    ∀ p ∈ d, WFV p.2 := by
  cases h with
  | dict d hn hm => exact hm

theorem sizeOf_val_lt_of_mem {d : List (Str × Val)} {k : Str} {v : Val}
    (h : (k, v) ∈ d) : sizeOf v < sizeOf (Val.dict d) := by
  have h1 := List.sizeOf_lt_of_mem h
  simp only [Prod.mk.sizeOf_spec] at h1
  simp only [Val.dict.sizeOf_spec]
  omega

theorem canon_eq_of_pyEq : ∀ (n : Nat) (v1 v2 : Val), sizeOf v1 < n →
    WFV v1 → WFV v2 → pyEqVal v1 v2 = true → canon v1 = canon v2 := by
  intro n
  induction n with
  | zero =>
    intro v1 v2 h
    exact absurd h (Nat.not_lt_zero _)
  | succ m ih =>
    intro v1 v2 hlt hw1 hw2 hpe
    cases v1 with
    | str a =>
      cases v2 with
      | str b =>
        rw [(pyEqVal_str_iff a b).mp hpe]
      | dict d2 =>
        rw [pyEqVal_str_dict] at hpe
        exact Bool.noConfusion hpe
    | dict d1 =>
      cases v2 with
      | str b =>
        rw [pyEqVal_dict_str] at hpe
        exact Bool.noConfusion hpe
      | dict d2 =>
        obtain ⟨hlen, hsub⟩ := (pyEqVal_dict_iff d1 d2).mp hpe
        rw [canon_dict, canon_dict]
        congr 1
        have hn1 : (keysOf d1).Nodup := WFV_dict_nodup hw1
        have hn2 : (keysOf d2).Nodup := WFV_dict_nodup hw2
        have hkeys := keys_mem_iff_of_pyEq d1 d2 hlen hsub hn1
        have hcn1 : (keysOf (canonEntries d1)).Nodup := by
          rw [keysOf_canonEntries]
          exact hn1
        have hcn2 : (keysOf (canonEntries d2)).Nodup := by
          rw [keysOf_canonEntries]
          exact hn2
        refine eq_of_strictSorted_of_mem _ _
          (strictSorted_sortByKey _ hcn1) (strictSorted_sortByKey _ hcn2) ?_
        intro x
        rw [(sortByKey_perm (canonEntries d1)).mem_iff,
          (sortByKey_perm (canonEntries d2)).mem_iff]
        rw [canonEntries_eq_map, canonEntries_eq_map]
        constructor
        · intro hx
          obtain ⟨p, hp, rfl⟩ := List.mem_map.mp hx
          obtain ⟨w, hw, hpe2⟩ := (pySubset_iff d1 d2).mp hsub p hp
          have hmem2 : (p.1, w) ∈ d2 := mem_of_alookup_eq_some hw
          have hsz : sizeOf p.2 < m := by
            have h1 := sizeOf_val_lt_of_mem (show (p.1, p.2) ∈ d1 from hp)
            simp only [Val.dict.sizeOf_spec] at h1 hlt
            omega
          have hce : canon p.2 = canon w :=
            ih p.2 w hsz (WFV_dict_mem hw1 p hp)
              (WFV_dict_mem hw2 (p.1, w) hmem2) hpe2
          refine List.mem_map.mpr ⟨(p.1, w), hmem2, ?_⟩
          show (p.1, canon w) = (p.1, canon p.2)
          rw [hce]
        · intro hx
          obtain ⟨p, hp, rfl⟩ := List.mem_map.mp hx
          have hk1 : p.1 ∈ keysOf d1 := (hkeys p.1).mpr
            (by rw [keysOf]; exact List.mem_map_of_mem Prod.fst hp)
          rw [keysOf] at hk1
          obtain ⟨p2, hp2, hp2k⟩ := List.mem_map.mp hk1
          obtain ⟨w, hw, hpe2⟩ := (pySubset_iff d1 d2).mp hsub p2 hp2
          have hlk : alookup p.1 d2 = some p.2 :=
            alookup_eq_some_of_mem_of_nodup hn2 (show (p.1, p.2) ∈ d2 from hp)
          rw [hp2k, hlk] at hw
          injection hw with hweq
          have hsz : sizeOf p2.2 < m := by
            have h1 := sizeOf_val_lt_of_mem
              (show (p2.1, p2.2) ∈ d1 from hp2)
            simp only [Val.dict.sizeOf_spec] at h1 hlt
            omega
          have hwf2 : WFV w := by
            rw [← hweq]
            exact WFV_dict_mem hw2 p hp
          have hce : canon p2.2 = canon w :=
            ih p2.2 w hsz (WFV_dict_mem hw1 p2 hp2) hwf2 hpe2
          refine List.mem_map.mpr ⟨p2, hp2, ?_⟩
          show (p2.1, canon p2.2) = (p.1, canon p.2)
          rw [hp2k, hce, hweq]

/-- C6: serialization determinism. Serializing two catalogs with the same
logical content (equal as Python objects: same key sets with recursively
equal values, entry order irrelevant) produces byte-identical output: the
serializer emits every nesting level in sorted key order with two-space
indentation, preserving non-ASCII characters literally. -/
theorem c6_serialization_deterministic (v1 v2 : Val) (hw1 : WFV v1)
    (hw2 : WFV v2) (heq : pyEqVal v1 v2 = true) :
    serializeJson v1 = serializeJson v2 := by
  rw [serializeJson, serializeJson,
    canon_eq_of_pyEq (sizeOf v1 + 1) v1 v2 (Nat.lt_succ_self _) hw1 hw2 heq]

theorem c6_serialization_deterministic_witness :
    serializeJson (Val.dict [(("b".data), Val.str ("ü".data)),
        (("a".data), Val.str ("x".data))]) =
      serializeJson (Val.dict [(("a".data), Val.str ("x".data)),
        (("b".data), Val.str ("ü".data))]) :=
  c6_serialization_deterministic _ _
    (by
      refine WFV.dict _ (by decide) ?_
      intro p hp
      rcases List.mem_cons.mp hp with h | h
      · rw [h]
        exact WFV.str _
      · rw [List.mem_singleton] at h
        rw [h]
        exact WFV.str _)
    (by
      refine WFV.dict _ (by decide) ?_
      intro p hp
      rcases List.mem_cons.mp hp with h | h
      · rw [h]
        exact WFV.str _
      · rw [List.mem_singleton] at h
        rw [h]
        exact WFV.str _)
    ((pyEqVal_dict_iff _ _).mpr ⟨rfl, (pySubset_iff _ _).mpr (by
      intro p hp
      rcases List.mem_cons.mp hp with h | h
      · refine ⟨Val.str ("ü".data), ?_, ?_⟩
        · rw [h]
          rfl
        · rw [h]
          exact (pyEqVal_str_iff _ _).mpr rfl
      · rw [List.mem_singleton] at h
        refine ⟨Val.str ("x".data), ?_, ?_⟩
        · rw [h]
          rfl
        · rw [h]
          exact (pyEqVal_str_iff _ _).mpr rfl)⟩)
